import Mathlib

/-!
# fast-image-converter: the conversion worker and the drop handler

A shallow embedding of `src/worker.js` (the message handler of the conversion
worker and the lazily initialised codec modules) and of `src/drag.js` (the
drop / paste handler), with the properties of the specification stated over it.

JavaScript strings are modelled as lists of characters.  The pixel codecs, the
file reader, `nanoid` and `is-svg` are external to the repository and enter as
parameters.
-/

namespace Worker

/-- A JavaScript string, as its sequence of characters. -/
abbrev Str := List Char

/-- The bytes of a buffer. -/
abbrev Bytes := List Nat

/-! ## JavaScript string primitives used by the handler -/

/-- The method `String.prototype.toLowerCase`, on the ASCII letters.  JavaScript lower-cases
letters outside ASCII as well; none of them becomes a letter of a key of the codec tables, so
the lookups of the handler are the same. -/
def toLowerCase (s : Str) : Str := s.map Char.toLower

/-- The method `String.prototype.split(sep)` for a one-character separator: the pieces between the
occurrences of `sep`; a string without `sep` gives the one-element list of itself. -/
def split (sep : Char) : Str → List Str
  | [] => [[]]
  | c :: cs =>
    if c = sep then [] :: split sep cs
    else
      match split sep cs with
      | [] => [[c]]
      | p :: ps => (c :: p) :: ps

/-- JavaScript falsiness of a value that is a string or `undefined`: `!src`. -/
def falsy : Option Str → Bool
  | none => true
  | some s => s.isEmpty

/-- The alternatives of the pattern `/\.(xml|jpe?g|pdf|png|webp|heic|heif|svg)$/i`, written out
(`jpe?g` stands for `jpg` and `jpeg`). -/
def patternAlternatives : List Str :=
  [".xml".toList, ".jpg".toList, ".jpeg".toList, ".pdf".toList, ".png".toList,
   ".webp".toList, ".heic".toList, ".heif".toList, ".svg".toList]

/-- The pattern matches at the start of `s` and, because of the `$` anchor, up to its end; the
`i` flag compares the ASCII letters without regard to case. -/
def matchesToEnd (s : Str) : Bool := patternAlternatives.contains (toLowerCase s)

/-- The call `name.replace(/\.(xml|jpe?g|pdf|png|webp|heic|heif|svg)$/i, '')`: the leftmost match is
replaced by the empty string.  A match reaches the end of the string, so what remains is the
text before the leftmost position at which the pattern matches. -/
def replaceSourceExt : Str → Str
  | [] => []
  | c :: cs => if matchesToEnd (c :: cs) then [] else c :: replaceSourceExt cs

/-- The decimal digits of a number, as a template literal prints it. -/
def decimal (n : Nat) : Str := Nat.toDigits 10 n

/-! ## Data of the worker -/

/-- A `File`: its name, its MIME type (possibly empty) and its content. -/
structure File where
  name : Str
  type : Str
  content : Bytes
deriving DecidableEq, Repr

/-- One element `_file` of the batch received by the message handler. -/
structure Job where
  id : Str
  file : File
  format : Str
deriving DecidableEq, Repr

/-- An `ImageData`: the canonical raster image. -/
structure ImageData where
  width : Nat
  height : Nat
  data : Bytes
deriving DecidableEq, Repr

/-- What a decoder resolves to: one value (an `ImageData`, for the decoders of the table), or an
array of them (`Array.isArray(rawBuffer)`). -/
inductive Decoded where
  | single (image : ImageData)
  | multi (images : List ImageData)
deriving DecidableEq, Repr

/-- The names every object literal inherits from `Object.prototype`: a property access with one
of these keys finds the inherited member, whatever the own keys of the literal are. -/
def objectPrototypeKeys : List Str :=
  ["constructor".toList, "__defineGetter__".toList, "__defineSetter__".toList,
   "hasOwnProperty".toList, "__lookupGetter__".toList, "__lookupSetter__".toList,
   "isPrototypeOf".toList, "propertyIsEnumerable".toList, "toString".toList,
   "valueOf".toList, "__proto__".toList, "toLocaleString".toList]

/-- What `encoders[target]` can find: the values of the `encoders` object, or the member
inherited under a key of `Object.prototype`. -/
inductive Encoder where
  | encode_png | encode_webp | encode_jpeg | encode_avif
  | inherited (key : Str)
deriving DecidableEq, Repr

/-- What `decoders[src]` can find: the values of the `decoders` object, or the member inherited
under a key of `Object.prototype`. -/
inductive Decoder where
  | decode_png | decode_webp | decode_jpeg | decode_avif | decode_heif
  | decode_svg | decode_xml | decode_pdf
  | inherited (key : Str)
deriving DecidableEq, Repr

/-- What `extensions[target]` can find: an extension, or the member inherited under a key of
`Object.prototype`. -/
inductive ExtValue where
  | ext (text : Str)
  | inherited (key : Str)
deriving DecidableEq, Repr

/-- The property access `object[key]` on an object literal with the own properties `table`:
the own property if there is one, else the inherited member if the key names one, else
`undefined` (`none`). -/
def getProp {α : Type} (table : List (Str × α)) (inherited : Str → α) (key : Str) : Option α :=
  match table.lookup key with
  | some v => some v
  | none => if objectPrototypeKeys.contains key then some (inherited key) else none

/-- The `encoders` object: own keys and their values. -/
def encodersTable : List (Str × Encoder) :=
  [("png".toList, .encode_png), ("webp".toList, .encode_webp),
   ("jpeg".toList, .encode_jpeg), ("avif".toList, .encode_avif)]

/-- The `decoders` object: own keys and their values. -/
def decodersTable : List (Str × Decoder) :=
  [("png".toList, .decode_png), ("webp".toList, .decode_webp),
   ("jpeg".toList, .decode_jpeg), ("jpg".toList, .decode_jpeg),
   ("avif".toList, .decode_avif), ("heif".toList, .decode_heif),
   ("heic".toList, .decode_heif), ("svg+xml".toList, .decode_svg),
   ("xml".toList, .decode_xml), ("pdf".toList, .decode_pdf)]

/-- The `extensions` object: own keys and their values. -/
def extensionsTable : List (Str × ExtValue) :=
  [("jpeg".toList, .ext ".jpg".toList), ("png".toList, .ext ".png".toList),
   ("webp".toList, .ext ".webp".toList), ("avif".toList, .ext ".avif".toList),
   ("heif".toList, .ext ".heif".toList), ("heic".toList, .ext ".heic".toList),
   ("pdf".toList, .ext ".pdf".toList)]

/-- The lookup `encoders[target]`; `none` is `undefined`. -/
def encoders (target : Str) : Option Encoder := getProp encodersTable .inherited target

/-- The lookup `decoders[src]`; the key `undefined` finds nothing. -/
def decoders : Option Str → Option Decoder
  | none => none
  | some src => getProp decodersTable .inherited src

/-- The lookup `extensions[target]`; `none` is `undefined`. -/
def extensions (target : Str) : Option ExtValue := getProp extensionsTable .inherited target

/-- The capabilities the handler receives from outside the repository: the file reader, what a
call of each value found in the tables resolves to (`none`: the call throws; for an encoder the
bytes are those of `new Uint8Array(...)` of its result), the text of an inherited member in a
string concatenation, and the stream of `nanoid` results. -/
structure Env where
  fileToArrayBuffer : File → Option Bytes
  runDecoder : Decoder → Bytes → Str → Option Decoded
  runEncoder : Encoder → ImageData → Option Bytes
  inheritedText : Str → Str
  nanoid : Nat → Str

/-- String concatenation `filename + ext` where `ext` is what `extensions[target]` found. -/
def plusExt (env : Env) (filename : Str) : Option ExtValue → Str
  | some (.ext text) => filename ++ text
  | some (.inherited key) => filename ++ env.inheritedText key
  | none => filename ++ "undefined".toList

/-- A `Blob` with its media type. -/
structure Blob where
  bytes : Bytes
  type : Str
deriving DecidableEq, Repr

/-- A child descriptor of the announcement: the spread of `_file` with a fresh id and the
position of the page. -/
structure Item where
  id : Str
  file : File
  format : Str
  bufferedIndex : Nat
deriving DecidableEq, Repr

/-- The messages the worker posts. -/
inductive Message where
  | result (id : Str) (blob : Blob) (filename : Str)
  | announcement (id : Str) (items : List Item) (emitMultiple : Bool) (length : Nat)
deriving DecidableEq, Repr

/-- What a stretch of the handler did: the messages posted (oldest first), the number of
`nanoid` calls made so far, and whether it ran to its end (`false`: an exception ended it). -/
structure Run where
  posted : List Message
  minted : Nat
  completed : Bool
deriving DecidableEq, Repr

/-! ## The message handler -/

/-- Lines 253: `const target = format.toLowerCase()`. -/
def resolveTarget (job : Job) : Str := toLowerCase job.format

/-- Lines 255-262: the source format.  `file.type.split('/')[1]`, and when that is falsy the
last piece of `file.name.split('.')`, lower-cased. -/
def resolveSrc (file : File) : Option Str :=
  let src := (split '/' file.type).get? 1
  if falsy src then
    ((split '.' file.name).getLast?).map toLowerCase
  else src

/-- Lines 236-249, `emit`: encode, wrap in a blob of type `"image/" + target`, post.  `none`
when the encoder throws. -/
def emit (env : Env) (id : Str) (enc : Encoder) (rawBuffer : ImageData) (filename target : Str) :
    Option Message :=
  match env.runEncoder enc rawBuffer with
  | none => none
  | some imageData => some (.result id ⟨imageData, "image/".toList ++ target⟩ filename)

/-- Lines 276-282: `rawBuffer.map((raw, i) => (..._file, id: nanoid(11), bufferedIndex: i))`,
for the pages from position `i` on, when `minted` ids have been drawn before. -/
def mkItems (env : Env) (job : Job) (minted : Nat) : Nat → List ImageData → List Item
  | _, [] => []
  | i, _ :: raws =>
    ⟨env.nanoid minted, job.file, job.format, i⟩ :: mkItems env job (minted + 1) (i + 1) raws

/-- Lines 291-297: the loop over the items.  Each page is looked up by the item's
`bufferedIndex`, named `strip(name) + "-" + (bufferedIndex + 1) + ext`, encoded and posted;
the first exception ends the loop (and the handler).  The result is the messages posted and
whether the loop ran to its end. -/
def emitItems (env : Env) (job : Job) (enc : Encoder) (target : Str) (rawBuffer : List ImageData) :
    List Item → List Message × Bool
  | [] => ([], true)
  | item :: rest =>
    match rawBuffer.get? item.bufferedIndex with
    | none => ([], false)
    | some rf =>
      let ext := extensions target
      let filename :=
        plusExt env (replaceSourceExt job.file.name ++ ('-' :: decimal (item.bufferedIndex + 1))) ext
      match emit env item.id enc rf filename target with
      | none => ([], false)
      | some msg =>
        let r := emitItems env job enc target rawBuffer rest
        (msg :: r.1, r.2)

/-- Lines 252-313: the body of the loop for one job, when `minted` ids have been drawn
before. -/
def handleJob (env : Env) (minted : Nat) (job : Job) : Run :=
  let target := resolveTarget job
  let src := resolveSrc job.file
  match encoders target, decoders src with
  | some enc, some dec =>
    match env.fileToArrayBuffer job.file with
    | none => ⟨[], minted, false⟩
    | some arrayBuffer =>
      match env.runDecoder dec arrayBuffer target with
      | none => ⟨[], minted, false⟩
      | some (.multi rawBuffer) =>
        let items := mkItems env job minted 0 rawBuffer
        let r := emitItems env job enc target rawBuffer items
        ⟨.announcement job.id items true rawBuffer.length :: r.1,
          minted + rawBuffer.length, r.2⟩
      | some (.single rawBuffer) =>
        let filename := plusExt env (replaceSourceExt job.file.name) (extensions target)
        match emit env job.id enc rawBuffer filename target with
        | none => ⟨[], minted, false⟩
        | some msg => ⟨[msg], minted, true⟩
  | _, _ => ⟨[], minted, true⟩

/-- Lines 251-325: the loop `for (const _file of data)`.  Jobs are handled one after the other;
an exception in one job ends the handler, the messages posted before it stay posted. -/
def onmessage (env : Env) (minted : Nat) : List Job → Run
  | [] => ⟨[], minted, true⟩
  | job :: rest =>
    let r := handleJob env minted job
    if r.completed then
      let r2 := onmessage env r.minted rest
      ⟨r.posted ++ r2.posted, r2.minted, r2.completed⟩
    else r

/-- The file names of the result messages among `msgs`, in order. -/
def filenames : List Message → List Str
  | [] => []
  | .result _ _ filename :: rest => filename :: filenames rest
  | .announcement _ _ _ _ :: rest => filenames rest

/-- The ids of the result messages among `msgs`, in order. -/
def resultIds : List Message → List Str
  | [] => []
  | .result id _ _ :: rest => id :: resultIds rest
  | .announcement _ _ _ _ :: rest => resultIds rest

/-- A message is a single-result message. -/
def Message.isResult : Message → Bool
  | .result _ _ _ => true
  | .announcement _ _ _ _ => false

/-! ## The statements of the specification, in its own words -/

/-- The fan-out contract for a job with id `id` whose decoder returned `n` pages: the messages
are one announcement with `emitMultiple = true`, `length = n` and `n` items, followed by exactly
`n` single-result messages, the i-th carrying the id of the i-th item, and the items'
`bufferedIndex` values are `0, 1, ..., n-1`. -/
def FanOutContract (id : Str) (n : Nat) (posted : List Message) : Prop :=
  ∃ items results,
    posted = .announcement id items true n :: results ∧
    items.length = n ∧
    results.length = n ∧
    (∀ m ∈ results, m.isResult = true) ∧
    resultIds results = items.map Item.id ∧
    items.map Item.bufferedIndex = List.range n

/-- The extensions the pattern of the handler names. -/
def patternExts : List Str :=
  ["xml".toList, "jpg".toList, "jpeg".toList, "pdf".toList, "png".toList,
   "webp".toList, "heic".toList, "heif".toList, "svg".toList]

/-- The source extensions of the specification: every extension a decoder stands for. -/
def supportedSourceExts : List Str :=
  ["png".toList, "jpg".toList, "jpeg".toList, "webp".toList, "avif".toList,
   "heif".toList, "heic".toList, "svg".toList, "xml".toList, "pdf".toList]

/-- The removal of a trailing extension among `exts`, compared without regard to case: a
trailing `"." ++ e` with `e` in `exts` is removed; any other name is unchanged. -/
def stripKnown (exts : List Str) (name : Str) : Str :=
  match exts.find? (fun e => ('.' :: e).isSuffixOf (toLowerCase name)) with
  | some e => name.take (name.length - ('.' :: e).length)
  | none => name

/-- Stripping as the specification words it: a trailing known source extension is removed,
without regard to case. -/
def specStrip (name : Str) : Str := stripKnown supportedSourceExts name

/-- The extension of a target as the specification words it: jpeg gives `.jpg`, png `.png`,
webp `.webp`, avif `.avif`. -/
def specExt (target : Str) : Str :=
  if target = "jpeg".toList then ".jpg".toList
  else if target = "png".toList then ".png".toList
  else if target = "webp".toList then ".webp".toList
  else if target = "avif".toList then ".avif".toList
  else []

/-- The file name the specification gives to page `k` (counted from 1) of a multi-page job. -/
def specPageName (name target : Str) (k : Nat) : Str :=
  specStrip name ++ "-".toList ++ decimal k ++ specExt target

/-- The MIME subtype as the specification words it: the text after the `/` of the type; absent
when the type has no `/`. -/
def specSubtype (type : Str) : Option Str :=
  if '/' ∈ type then some ((type.dropWhile (· ≠ '/')).drop 1) else none

/-- The extension of a name as the specification words it: the text after its last `.` (all
of the name when it has none). -/
def lastPiece (name : Str) : Str := (name.reverse.takeWhile (· ≠ '.')).reverse

/-- The source format as the specification words it: the MIME subtype when present and
non-empty, otherwise the lower-cased extension of the name. -/
def specSourceFormat (file : File) : Str :=
  match specSubtype file.type with
  | some sub => if sub.isEmpty then toLowerCase (lastPiece file.name) else sub
  | none => toLowerCase (lastPiece file.name)

/-- The piece of the type that the handler reads: the text between the first `/` and the next
`/` (or the end); absent when the type has no `/`. -/
def secondPiece (type : Str) : Option Str :=
  if '/' ∈ type then some (((type.dropWhile (· ≠ '/')).drop 1).takeWhile (· ≠ '/')) else none

/-- The source format as the handler resolves it, in words: the second piece of the type when
present and non-empty, otherwise the lower-cased extension of the name. -/
def amendedSourceFormat (file : File) : Str :=
  match secondPiece file.type with
  | some sub => if sub.isEmpty then toLowerCase (lastPiece file.name) else sub
  | none => toLowerCase (lastPiece file.name)

/-- The number a string of decimal digits stands for. -/
def digitsValue (cs : Str) : Nat := cs.foldl (fun acc c => 10 * acc + (c.toNat - 48)) 0

/-- The file name the handler gives to the page with `bufferedIndex = i`. -/
def pageName (env : Env) (name target : Str) (i : Nat) : Str :=
  plusExt env (replaceSourceExt name ++ ('-' :: decimal (i + 1))) (extensions target)

/-- The targets of the specification: the formats with an encoder. -/
def supportedTargets : List Str :=
  ["png".toList, "jpeg".toList, "webp".toList, "avif".toList]

/-- The job passes the capability lookup with encoder `enc`, its file is read and its decoder
returns the array `pages`: a multi-page job. -/
def DecodesToPages (env : Env) (job : Job) (enc : Encoder) (pages : List ImageData) : Prop :=
  ∃ dec arrayBuffer,
    encoders (resolveTarget job) = some enc ∧
    decoders (resolveSrc job.file) = some dec ∧
    env.fileToArrayBuffer job.file = some arrayBuffer ∧
    env.runDecoder dec arrayBuffer (resolveTarget job) = some (.multi pages)

/-- The job is dropped by the capability lookup (`!enc || !dec`): the lookup finds nothing for
its target or nothing for its source. -/
def Unsupported (job : Job) : Prop :=
  encoders (resolveTarget job) = none ∨ decoders (resolveSrc job.file) = none

/-! ## Concrete codecs and jobs -/

/-- A concrete set of capabilities.  The PDF decoder yields one page per byte of the file, every
other decoder of the table one image; an encoder of the table returns the pixel data, and
throws (`Decoding error`, the module returned nothing) on the image whose data is `[0]`.
Of the inherited members, `constructor` is the function `Object`, which returns its argument:
as a decoder it resolves to the one value it was given, as an encoder it yields no bytes (the
`Uint8Array` made of an object without `length` is empty); `__proto__` is not a function, and
the calls of the other members are taken to throw.  In a concatenation a function reads as its
source text. -/
def sampleEnv : Env where
  fileToArrayBuffer := fun f => some f.content
  runDecoder := fun dec buf _ =>
    match dec with
    | .decode_pdf => some (.multi (buf.map fun b => ⟨1, 1, [b]⟩))
    | .inherited key => if key = "constructor".toList then some (.single ⟨0, 0, buf⟩) else none
    | _ => some (.single ⟨1, 1, buf⟩)
  runEncoder := fun enc image =>
    match enc with
    | .inherited key => if key = "constructor".toList then some [] else none
    | _ => if image.data = [0] then none else some image.data
  inheritedText := fun key =>
    if key = "constructor".toList then "function Object() \x7b [native code] \x7d".toList
    else if key = "__proto__".toList then "[object Object]".toList
    else "function ".toList ++ key ++ "() \x7b [native code] \x7d".toList
  nanoid := fun n => 'n' :: decimal n

/-- A three-page PDF named `report.pdf`, to be converted to JPEG. -/
def reportJob : Job :=
  ⟨"job".toList, ⟨"report.pdf".toList, "application/pdf".toList, [7, 8, 9]⟩, "jpeg".toList⟩

/-- A two-page PDF whose second page the AVIF encoder rejects. -/
def brokenPageJob : Job :=
  ⟨"job".toList, ⟨"scan.pdf".toList, "application/pdf".toList, [7, 0]⟩, "avif".toList⟩

/-- An AVIF image named `photo.avif`, to be converted to PNG. -/
def avifJob : Job :=
  ⟨"job".toList, ⟨"photo.avif".toList, "image/avif".toList, [1, 2, 3]⟩, "png".toList⟩

/-- A two-page PDF (of type `application/pdf`) that carries the name `scan.avif`, to be
converted to JPEG. -/
def misnamedPdfJob : Job :=
  ⟨"job".toList, ⟨"scan.avif".toList, "application/pdf".toList, [7, 8]⟩, "jpeg".toList⟩

/-- A PNG image to be converted to a format without encoder. -/
def bmpJob : Job :=
  ⟨"b".toList, ⟨"icon.png".toList, "image/png".toList, [4]⟩, "bmp".toList⟩

/-- A PNG image to be converted to the format `constructor`. -/
def constructorJob : Job :=
  ⟨"c".toList, ⟨"icon.png".toList, "image/png".toList, [4]⟩, "constructor".toList⟩

/-- A PNG image to be converted to the format `__proto__`. -/
def protoJob : Job :=
  ⟨"p".toList, ⟨"icon.png".toList, "image/png".toList, [4]⟩, "__proto__".toList⟩

/-- Two images `photo.png` and `photo.webp`, both to be converted to JPEG. -/
def clashBatch : List Job :=
  [⟨"1".toList, ⟨"photo.png".toList, "image/png".toList, [1]⟩, "jpeg".toList⟩,
   ⟨"2".toList, ⟨"photo.webp".toList, "image/webp".toList, [2]⟩, "jpeg".toList⟩]

/-- A file whose type has two `/`. -/
def twoSlashFile : File := ⟨"a.bin".toList, "image/png/x".toList, [1]⟩

end Worker

namespace Modules

/-! ## The lazily initialised modules of `worker.js` (lines 24-202)

The module-level variables of the worker, together with a record of every module instance
created and of the instance each call worked with.  An `async` function runs without
interruption up to its first `await`; what follows the `await` runs later, possibly after
other calls have started.  The initialisations themselves (`initEmscriptenModule`,
`wasm_heif`, `initResvg`, `new PDFWorker()`) belong to other packages and are taken to
succeed.  `transform` of the package vector-drawable-svg, which `decode_xml` calls before
anything else, throws on a document it cannot convert; whether it returns is a parameter of the
call. -/

/-- The modules the functions of the worker work through. -/
inductive Kind where
  | avifDec | avifEnc | webpEnc | heif | resvg | pdfWorker
deriving DecidableEq, Repr

/-- The calls of the functions of the worker that work through a module.  A call of
`decode_xml` comes with the outcome of `transform(xmlString)` (line 161): `true` when it
returns the SVG text, `false` when it throws. -/
inductive Fn where
  | decode_heif | encode_avif | encode_webp | decode_avif | decode_svg
  | decode_xml (transformed : Bool) | decode_pdf
deriving DecidableEq, Repr

/-- The module a function works through. -/
def Fn.kind : Fn → Kind
  | .decode_heif => .heif
  | .encode_avif => .avifEnc
  | .encode_webp => .webpEnc
  | .decode_avif => .avifDec
  | .decode_svg => .resvg
  | .decode_xml _ => .resvg
  | .decode_pdf => .pdfWorker

/-- Whether a call gets as far as its module.  The functions test or create their module in
their first statements; `decode_xml` runs `transform(xmlString)` before it calls `decode_svg`,
and ends there when `transform` throws. -/
def Fn.reachesModule : Fn → Bool
  | .decode_xml transformed => transformed
  | _ => true

/-- A call for the module kind `k` that gets as far as the module. -/
def Fn.reaches (f : Fn) (k : Kind) : Bool := decide (f.kind = k) && f.reachesModule

/-- The module-level state.  Instances are numbered in the order of their creation.
`workerPort` is `pdfjs.GlobalWorkerOptions.workerPort`, `resvgWasm` the module that `initResvg`
installed in the renderer library; `created` and `used` record the instances created and the
instance each finished call worked with. -/
structure State where
  pdfReady : Bool
  isResvgReady : Bool
  emscriptenModuleAVIF : Option Nat
  emscriptenModuleAVIF_ENC : Option Nat
  emscriptenModuleWEBP : Option Nat
  workerPort : Option Nat
  resvgWasm : Option Nat
  created : List (Kind × Nat)
  used : List (Kind × Option Nat)
deriving DecidableEq, Repr

/-- The state of a freshly started worker (lines 24-28). -/
def State.initial : State :=
  ⟨false, false, none, none, none, none, none, [], []⟩

/-- A call suspended at its first `await`: on the promise of a module instance, or on
`initResvg`. -/
inductive Pending where
  | awaitModule (k : Kind) (inst : Option Nat)
  | awaitInitResvg
deriving DecidableEq, Repr

/-- The number of the next instance. -/
def State.fresh (s : State) : Nat := s.created.length

/-- The start of `decode_svg` (lines 131-137), up to its first `await`: when `isResvgReady` is
false, `initResvg` is called and awaited; otherwise rendering goes ahead with the renderer
that is installed. -/
def decode_svg (s : State) : State × Option Pending :=
  if s.isResvgReady then
    ({ s with used := s.used ++ [(.resvg, s.resvgWasm)] }, none)
  else
    ({ s with resvgWasm := some s.fresh, created := s.created ++ [(.resvg, s.fresh)] },
     some .awaitInitResvg)

/-- The start of `decode_xml` (lines 157-164): the document is converted with
`transform(xmlString)`; when that throws the call ends, the module-level state as it was; when
it returns, `decode_svg` is called with the SVG text. -/
def decode_xml (s : State) (transformed : Bool) : State × Option Pending :=
  if transformed then decode_svg s else (s, none)

/-- The start of a call, up to its first `await` (`none`: the call went on, or ended, without
suspending).
* `encode_avif`, `encode_webp`, `decode_avif` (lines 84-129): when the variable is empty,
  `initEmscriptenModule` is called and its promise stored; the promise is awaited.
* `decode_heif` (lines 40-53): `wasm_heif(...)` is called and awaited.
* `decode_svg`, `decode_xml`: see above.
* `decode_pdf` (lines 166-186): when `pdfReady` is false a `PDFWorker` is created, stored as
  the worker port and `pdfReady` set; `getDocument` then works with the worker port. -/
def invoke (s : State) : Fn → State × Option Pending
  | .encode_avif =>
    match s.emscriptenModuleAVIF_ENC with
    | none =>
      ({ s with emscriptenModuleAVIF_ENC := some s.fresh,
                created := s.created ++ [(.avifEnc, s.fresh)] },
       some (.awaitModule .avifEnc (some s.fresh)))
    | some m => (s, some (.awaitModule .avifEnc (some m)))
  | .encode_webp =>
    match s.emscriptenModuleWEBP with
    | none =>
      ({ s with emscriptenModuleWEBP := some s.fresh,
                created := s.created ++ [(.webpEnc, s.fresh)] },
       some (.awaitModule .webpEnc (some s.fresh)))
    | some m => (s, some (.awaitModule .webpEnc (some m)))
  | .decode_avif =>
    match s.emscriptenModuleAVIF with
    | none =>
      ({ s with emscriptenModuleAVIF := some s.fresh,
                created := s.created ++ [(.avifDec, s.fresh)] },
       some (.awaitModule .avifDec (some s.fresh)))
    | some m => (s, some (.awaitModule .avifDec (some m)))
  | .decode_heif =>
    ({ s with created := s.created ++ [(.heif, s.fresh)] },
     some (.awaitModule .heif (some s.fresh)))
  | .decode_svg => decode_svg s
  | .decode_xml transformed => decode_xml s transformed
  | .decode_pdf =>
    if s.pdfReady then
      ({ s with used := s.used ++ [(.pdfWorker, s.workerPort)] }, none)
    else
      ({ s with workerPort := some s.fresh, pdfReady := true,
                created := s.created ++ [(.pdfWorker, s.fresh)],
                used := s.used ++ [(.pdfWorker, some s.fresh)] }, none)

/-- The continuation of a suspended call: the awaited module is put to work; after
`await initResvg(...)`, `isResvgReady` is set and the renderer put to work. -/
def resume (s : State) : Pending → State
  | .awaitModule k inst => { s with used := s.used ++ [(k, inst)] }
  | .awaitInitResvg => { s with isResvgReady := true, used := s.used ++ [(.resvg, s.resvgWasm)] }

/-- A call that runs to its module without other calls in between. -/
def call (s : State) (f : Fn) : State :=
  match invoke s f with
  | (s1, none) => s1
  | (s1, some p) => resume s1 p

/-- A sequence of calls, each finished before the next starts. -/
def runCalls (s : State) (fs : List Fn) : State := fs.foldl call s

/-- What the scheduler does next: start a call, or continue the `i`-th suspended call. -/
inductive Event where
  | start (f : Fn)
  | proceed (i : Nat)
deriving DecidableEq, Repr

/-- The worker with its suspended calls. -/
structure World where
  state : State
  pending : List Pending
deriving DecidableEq, Repr

/-- The freshly started worker. -/
def World.initial : World := ⟨State.initial, []⟩

/-- One scheduling step. -/
def World.step (w : World) : Event → World
  | .start f =>
    match invoke w.state f with
    | (s, none) => ⟨s, w.pending⟩
    | (s, some p) => ⟨s, w.pending ++ [p]⟩
  | .proceed i =>
    match w.pending.get? i with
    | none => w
    | some p => ⟨resume w.state p, w.pending.eraseIdx i⟩

/-- Any interleaving of calls: a sequence of scheduling steps. -/
def World.run (w : World) (es : List Event) : World := es.foldl World.step w

/-- The instances of kind `k` created so far. -/
def State.instances (s : State) (k : Kind) : List Nat :=
  (s.created.filter (fun c => c.1 = k)).map Prod.snd

/-- The instances the finished calls of kind `k` worked with. -/
def State.uses (s : State) (k : Kind) : List (Option Nat) :=
  (s.used.filter (fun u => u.1 = k)).map Prod.snd

/-- The number of calls started among `es` that got as far as the module of kind `k`. -/
def startsOf (k : Kind) (es : List Event) : Nat :=
  (es.filter (fun e => match e with | .start f => f.reaches k | .proceed _ => false)).length

/-- The singleton property of the specification for the module kind `k`: at most one instance
was created, and every finished call of that kind worked with it. -/
def Singleton (s : State) (k : Kind) : Prop :=
  (s.instances k).length ≤ 1 ∧ ∀ u ∈ s.uses k, ∃ n, u = some n ∧ s.instances k = [n]

/-- The singleton property together with creation on first use: one instance exists as soon as
a call has got as far as the module (`starts` counts those calls), none before. -/
def SingletonOnFirstUse (s : State) (k : Kind) (starts : Nat) : Prop :=
  Singleton s k ∧ (s.instances k).length = min 1 starts

/-- The variable, or library slot, that holds the instance of a module kind. -/
def State.slot (s : State) : Kind → Option Nat
  | .avifDec => s.emscriptenModuleAVIF
  | .avifEnc => s.emscriptenModuleAVIF_ENC
  | .webpEnc => s.emscriptenModuleWEBP
  | .pdfWorker => s.workerPort
  | .resvg => s.resvgWasm
  | .heif => none

/-- The kinds whose variable is tested and assigned without an `await` in between. -/
def Kind.cached : Kind → Bool
  | .avifDec => true
  | .avifEnc => true
  | .webpEnc => true
  | .pdfWorker => true
  | .resvg => false
  | .heif => false

/-- The invariant of the worker under any interleaving: for each cached kind the instances
created are the one held in its slot, and the finished and the suspended calls of the kind hold
that instance. -/
def World.Inv (w : World) : Prop :=
  w.state.pdfReady = w.state.workerPort.isSome ∧
  ∀ k, k.cached = true →
    w.state.instances k = (w.state.slot k).toList ∧
    (∀ u ∈ w.state.uses k, u.isSome = true ∧ u = w.state.slot k) ∧
    (∀ inst, Pending.awaitModule k inst ∈ w.pending →
      inst.isSome = true ∧ inst = w.state.slot k)

/-- The invariant of the renderer module under calls that do not overlap. -/
def State.ResvgInv (s : State) : Prop :=
  s.isResvgReady = s.resvgWasm.isSome ∧
  s.instances .resvg = s.resvgWasm.toList ∧
  ∀ u ∈ s.uses .resvg, u.isSome = true ∧ u = s.resvgWasm

end Modules

namespace Drag

open Worker

/-! ## The drop and paste handler of `drag.js` -/

/-- Lines 3-16: the set `SUPPORTED_MIME_TYPES`. -/
def SUPPORTED_MIME_TYPES : List Str :=
  ["image/svg+xml".toList, "image/jpeg".toList, "image/png".toList, "image/webp".toList,
   "image/avif".toList, "application/pdf".toList, "image/heif".toList, "image/heic".toList,
   "image/heif-sequence".toList, "image/heic-sequence".toList, "application/xml".toList,
   "text/xml".toList]

/-- The test `/\.(heif|heic)$/i.test(name)`: at some position of the name the pattern matches up
to the end. -/
def heifPattern (name : Str) : Bool :=
  name.tails.any fun s => [".heif".toList, ".heic".toList].contains (toLowerCase s)

/-- Lines 79 and 92: the condition under which a file is pushed. -/
def passesFilter (file : File) : Bool :=
  SUPPORTED_MIME_TYPES.contains file.type || heifPattern file.name

/-- What the three accessors of a `DataTransferItem` hand out.
* `absent`: `null` or `undefined`;
* `fileHandle`, `directoryHandle`: a `FileSystemFileHandle` (`kind` is `'file'`, has
  `getFile()`) and a `FileSystemDirectoryHandle` (`kind` is `'directory'`, has `values()`);
* `fileEntry`, `directoryEntry`: the entries of `webkitGetAsEntry()`, a `FileSystemFileEntry`
  (`isDirectory` is false, no `getFile`) and a `FileSystemDirectoryEntry` (`isDirectory` is
  true, no `values()`);
* `bareFile`: the `File` of `getAsFile()` (neither `kind` nor `getFile`).

The calls `getFile()` and `values()` of the platform are taken to succeed where they exist. -/
inductive Handle where
  | absent
  | fileHandle (file : File)
  | directoryHandle (entries : List Handle)
  | fileEntry (file : File)
  | directoryEntry (entries : List Handle)
  | bareFile (file : File)

/-- A `DataTransferItem`: its kind and what each accessor would return. -/
structure DataTransferItem where
  kind : Str
  getAsFileSystemHandle : Handle
  webkitGetAsEntry : Handle
  getAsFile : Handle

/-- A `DataTransfer`: the types with their data, the items (possibly missing) and the files. -/
structure DataTransfer where
  types : List Str
  getData : Str → Str
  items : Option (List DataTransferItem)
  files : List File

/-- What the handler takes from the platform: the two feature probes (lines 18-21), the
`is-svg` check and the encoding of a text as the content of a blob. -/
structure Platform where
  supportsFileSystemAccessAPI : Bool
  supportsWebkitGetAsEntry : Bool
  isSvg : Str → Bool
  encodeText : Str → Bytes

/-- Lines 23-29, `createSvgFile`. -/
def createSvgFile (p : Platform) (svg : Str) : File :=
  ⟨"image.svg".toList, "image/svg+xml".toList, p.encodeText svg⟩

/-- Lines 49-55: the files made from the `text/plain` payloads that are SVG. -/
def clipboardFiles (p : Platform) (dt : DataTransfer) : List File :=
  (dt.types.filter fun type =>
      decide (type = "text/plain".toList) && p.isSvg (dt.getData type)).map
    fun type => createSvgFile p (dt.getData type)

/-- Lines 58-62: the handles of the items of kind `'file'`, by the first accessor the platform
supports. -/
def itemHandles (p : Platform) (items : List DataTransferItem) : List Handle :=
  (items.filter fun item => item.kind = "file".toList).map fun item =>
    if p.supportsFileSystemAccessAPI then item.getAsFileSystemHandle
    else if p.supportsWebkitGetAsEntry then item.webkitGetAsEntry
    else item.getAsFile

mutual
/-- Lines 64-84, `traverse`: the files pushed while visiting a handle; `none` when the visit
throws (`handle.values` is not a function).  An absent handle is warned about and skipped; a
directory is visited entry by entry; any other handle contributes its file when it has
`getFile` and the file passes the filter. -/
def traverse : Handle → Option (List File)
  | .absent => some []
  | .directoryHandle entries => traverseAll entries
  | .directoryEntry _ => none
  | .fileHandle file => some (if passesFilter file then [file] else [])
  | .fileEntry _ => some []
  | .bareFile _ => some []
/-- The loops `for await (const entry of handle.values())` and
`for await (const handle of promises)`: the handles are visited in order. -/
def traverseAll : List Handle → Option (List File)
  | [] => some []
  | handle :: rest =>
    match traverse handle with
    | none => none
    | some pushed =>
      match traverseAll rest with
      | none => none
      | some more => some (pushed ++ more)
end

/-- What a run of `handleDataTransfer` did: the arguments of the `onDrop` calls it made, and
whether an exception ended it. -/
structure Outcome where
  onDropCalls : List (List File)
  threw : Bool
deriving DecidableEq

/-- Lines 46-98, `handleDataTransfer`. -/
def handleDataTransfer (p : Platform) (dt : DataTransfer) : Outcome :=
  let fromClipboard := clipboardFiles p dt
  let fromItems :=
    match dt.items with
    | none => some []
    | some items => traverseAll (itemHandles p items)
  match fromItems with
  | none => ⟨[], true⟩
  | some pushed => ⟨[fromClipboard ++ pushed ++ dt.files.filter passesFilter], false⟩

/-- A drag event delivered to the element. -/
structure DragEvent where
  type : Str
  dataTransfer : DataTransfer

/-- The page as the handlers change it: whether `document.body` carries the class `drag-over`,
the arguments of the `onDrop` calls, and the types of the events whose default was
prevented. -/
structure Page where
  dragOver : Bool
  onDropCalls : List (List File)
  prevented : List Str

/-- The properties assigned on the element, latest first, by name. -/
abbrev Element := List (Str × (DragEvent → Page → Page))

/-- The calls `e.preventDefault(); e.stopPropagation()`. -/
def suppress (e : DragEvent) (page : Page) : Page :=
  { page with prevented := page.prevented ++ [e.type] }

/-- The call `document.body.classList.add('drag-over')`. -/
def addDragOver (page : Page) : Page := { page with dragOver := true }

/-- The call `document.body.classList.remove('drag-over')`. -/
def removeDragOver (page : Page) : Page := { page with dragOver := false }

/-- Lines 106-146: the properties `createFileDropHandler` assigns on the element, each under
the name the source assigns it to.  (Lines 100-104 assign `document.onpaste`, which hands the
clipboard data to `handleDataTransfer`; it is not a property of the element.) -/
def createFileDropHandler (p : Platform) (el : Element) : Element :=
  [("dragleave".toList, fun e page => removeDragOver (suppress e page)),
   ("ondragenter".toList, fun e page => addDragOver (suppress e page)),
   ("ondragover".toList, fun e page => addDragOver (suppress e page)),
   ("ondragend".toList, fun e page => removeDragOver (suppress e page)),
   ("ondragstart".toList, fun e page => suppress e page),
   ("ondrop".toList, fun e page =>
      let page1 := removeDragOver (suppress e page)
      { page1 with
        onDropCalls := page1.onDropCalls ++ (handleDataTransfer p e.dataTransfer).onDropCalls }),
   ("ondrag".toList, fun e page => suppress e page)] ++ el

/-- The delivery of an event of type `t` to the element: the event handler is the property
named `on` followed by `t`. -/
def dispatch (el : Element) (e : DragEvent) (page : Page) : Page :=
  match el.lookup ("on".toList ++ e.type) with
  | some handler => handler e page
  | none => page

/-- The delivery of a sequence of events, in order. -/
def dispatchAll (el : Element) (es : List DragEvent) (page : Page) : Page :=
  es.foldl (fun pg e => dispatch el e pg) page

/-! ## The statements of the specification, in its own words -/

/-- The filter as the specification words it: the MIME type is in the supported set, or the
name ends in `.heif` or `.heic` without regard to case. -/
def specFilter (file : File) : Bool :=
  decide (file.type ∈ SUPPORTED_MIME_TYPES) ||
    (".heif".toList.isSuffixOf (toLowerCase file.name) ||
     ".heic".toList.isSuffixOf (toLowerCase file.name))

mutual
/-- The leaf files below a handle, depth-first in enumeration order: a directory's contents
before its next sibling, absent handles skipped. -/
def leafFiles : Handle → List File
  | .absent => []
  | .directoryHandle entries => leafFilesAll entries
  | .directoryEntry entries => leafFilesAll entries
  | .fileHandle file => [file]
  | .fileEntry file => [file]
  | .bareFile file => [file]
/-- The leaf files below a list of handles, in order. -/
def leafFilesAll : List Handle → List File
  | [] => []
  | handle :: rest => leafFiles handle ++ leafFilesAll rest
end

/-- The clipboard part as the specification words it: one `image.svg` file of type
`image/svg+xml` for each `text/plain` payload that passes the SVG sniff. -/
def specClipboardFiles (p : Platform) (dt : DataTransfer) : List File :=
  (((dt.types.filter fun type => type = "text/plain".toList).map dt.getData).filter p.isSvg).map
    fun text => ⟨"image.svg".toList, "image/svg+xml".toList, p.encodeText text⟩

/-- The list the specification has `onDrop` receive: the SVG files of the clipboard, then the
leaf files of the item handles that pass the filter, then the flat files that pass it. -/
def specDropList (p : Platform) (dt : DataTransfer) : List File :=
  specClipboardFiles p dt
    ++ (leafFilesAll (itemHandles p (dt.items.getD []))).filter specFilter
    ++ dt.files.filter specFilter

mutual
/-- The files below a handle that are reached through a file-system file handle (a leaf with
`getFile`), depth-first in enumeration order. -/
def handleFiles : Handle → List File
  | .absent => []
  | .directoryHandle entries => handleFilesAll entries
  | .directoryEntry entries => handleFilesAll entries
  | .fileHandle file => [file]
  | .fileEntry _ => []
  | .bareFile _ => []
/-- The same below a list of handles, in order. -/
def handleFilesAll : List Handle → List File
  | [] => []
  | handle :: rest => handleFiles handle ++ handleFilesAll rest
end

/-- The list `onDrop` receives from the handler, in words: the SVG files of the clipboard, then
the files behind the file-system file handles that pass the filter, then the flat files that
pass it. -/
def amendedDropList (p : Platform) (dt : DataTransfer) : List File :=
  specClipboardFiles p dt
    ++ (handleFilesAll (itemHandles p (dt.items.getD []))).filter specFilter
    ++ dt.files.filter specFilter

mutual
/-- No legacy directory entry (a directory without `values()`) is at or below the handle. -/
def noDirectoryEntry : Handle → Bool
  | .absent => true
  | .directoryHandle entries => noDirectoryEntryAll entries
  | .directoryEntry _ => false
  | .fileHandle _ => true
  | .fileEntry _ => true
  | .bareFile _ => true
/-- The same for a list of handles. -/
def noDirectoryEntryAll : List Handle → Bool
  | [] => true
  | handle :: rest => noDirectoryEntry handle && noDirectoryEntryAll rest
end

/-- The drag-over contract of the specification at the end of a sequence of events: after a
`dragover` or `dragenter` the flag is set, after a `drop`, `dragend` or `dragleave` it is
cleared. -/
def DragOverContract (last : DragEvent) (page : Page) : Prop :=
  (last.type ∈ ["dragover".toList, "dragenter".toList] → page.dragOver = true) ∧
  (last.type ∈ ["drop".toList, "dragend".toList, "dragleave".toList] → page.dragOver = false)

/-! ## Concrete platforms and transfers -/

/-- A browser with the File System Access API; a text is taken for SVG when it starts
with `<svg`. -/
def modernPlatform : Platform :=
  ⟨true, true, fun text => "<svg".toList.isPrefixOf text, fun text => text.map Char.toNat⟩

/-- A browser with `webkitGetAsEntry` only. -/
def legacyPlatform : Platform :=
  ⟨false, true, fun text => "<svg".toList.isPrefixOf text, fun text => text.map Char.toNat⟩

/-- A supported file. -/
def rootPng : File := ⟨"a.png".toList, "image/png".toList, [1]⟩

/-- An unsupported file. -/
def notes : File := ⟨"notes.txt".toList, "text/plain".toList, [2]⟩

/-- A supported file in a subdirectory. -/
def nestedJpg : File := ⟨"b.jpg".toList, "image/jpeg".toList, [3]⟩

/-- An empty transfer. -/
def emptyTransfer : DataTransfer := ⟨[], fun _ => [], none, []⟩

/-- A dropped directory holding a supported file, an unsupported file and a subdirectory with a
supported file. -/
def directoryDrop : DataTransfer :=
  { emptyTransfer with
    items := some [⟨"file".toList,
      .directoryHandle [.fileHandle rootPng, .fileHandle notes,
        .directoryHandle [.fileHandle nestedJpg]],
      .absent, .absent⟩] }

/-- The drop of one file `a.png` on a browser with `webkitGetAsEntry` only: the item hands out
a file entry, and the file is in the flat list. -/
def entryDrop : DataTransfer :=
  { emptyTransfer with
    items := some [⟨"file".toList, .absent, .fileEntry rootPng, .bareFile rootPng⟩],
    files := [rootPng] }

/-- The drop of a directory on a browser with `webkitGetAsEntry` only: the item hands out a
directory entry. -/
def entryDirectoryDrop : DataTransfer :=
  { emptyTransfer with
    items := some [⟨"file".toList, .absent, .directoryEntry [.fileEntry rootPng], .absent⟩] }

/-- A drag event of a given type. -/
def dragEvent (type : String) : DragEvent := ⟨type.toList, emptyTransfer⟩

/-- The page before any event. -/
def Page.initial : Page := ⟨false, [], []⟩

/-- A file of a sequence type that the filter admits. -/
def sequenceFile : File := ⟨"burst.heics".toList, "image/heic-sequence".toList, [1]⟩

/-- A HEIC file whose MIME type the platform misreports. -/
def misreportedHeic : File := ⟨"IMG_1.HEIC".toList, "application/octet-stream".toList, [1]⟩

end Drag

namespace Worker

/-! ## Properties of `split` -/

theorem split_ne_nil (sep : Char) (s : Str) : split sep s ≠ [] := by
  cases s with
  | nil => simp [split]
  | cons c cs =>
    unfold split
    split_ifs
    · simp
    · cases h : split sep cs <;> simp

theorem split_of_not_mem (sep : Char) (s : Str) (h : sep ∉ s) : split sep s = [s] := by
  induction s with
  | nil => rfl
  | cons c cs ih =>
    have hc : c ≠ sep := fun e => h (by simp [e])
    have hcs : sep ∉ cs := fun e => h (by simp [e])
    simp [split, hc, ih hcs]

theorem split_head (sep : Char) (s : Str) :
    (split sep s).head? = some (s.takeWhile (· ≠ sep)) := by
  induction s with
  | nil => rfl
  | cons c cs ih =>
    by_cases hc : c = sep
    · simp [split, hc]
    · cases h : split sep cs with
      | nil => exact absurd h (split_ne_nil sep cs)
      | cons p ps =>
        rw [h] at ih
        simp only [List.head?_cons, Option.some.injEq] at ih
        simp [split, hc, h, ih]

theorem split_second (sep : Char) (s : Str) :
    (split sep s).get? 1 =
      if sep ∈ s then some (((s.dropWhile (· ≠ sep)).drop 1).takeWhile (· ≠ sep)) else none := by
  induction s with
  | nil => simp [split]
  | cons c cs ih =>
    by_cases hc : c = sep
    · have := split_head sep cs
      cases h : split sep cs with
      | nil => exact absurd h (split_ne_nil sep cs)
      | cons p ps =>
        rw [h] at this
        simp only [List.head?_cons, Option.some.injEq] at this
        simp [split, hc, h, this]
    · cases h : split sep cs with
      | nil => exact absurd h (split_ne_nil sep cs)
      | cons p ps =>
        rw [h] at ih
        have hm : (sep ∈ c :: cs) ↔ sep ∈ cs := by
          simp [List.mem_cons, Ne.symm hc]
        simp only [split, hc, if_false, h, hm, List.dropWhile_cons, ne_eq, not_false_eq_true,
          decide_True, if_true]
        simpa using ih

theorem takeWhile_append_left {α : Type} (p : α → Bool) (l m : List α)
    (h : ∃ x ∈ l, p x = false) : (l ++ m).takeWhile p = l.takeWhile p := by
  induction l with
  | nil => simp at h
  | cons a l ih =>
    by_cases ha : p a = true
    · have h2 : ∃ x ∈ l, p x = false := by
        obtain ⟨x, hx, hpx⟩ := h
        rcases List.mem_cons.1 hx with rfl | hx
        · simp [ha] at hpx
        · exact ⟨x, hx, hpx⟩
      simp [List.takeWhile_cons, ha, ih h2]
    · simp [List.takeWhile_cons, ha]

theorem lastPiece_of_not_mem (s : Str) (h : '.' ∉ s) : lastPiece s = s := by
  unfold lastPiece
  have : s.reverse.takeWhile (· ≠ '.') = s.reverse := by
    rw [List.takeWhile_eq_self_iff]
    intro x hx
    have : x ∈ s := List.mem_reverse.1 hx
    simp only [ne_eq, decide_not, Bool.not_eq_true', decide_eq_false_iff_not]
    rintro rfl
    exact h this
  rw [this, List.reverse_reverse]

theorem lastPiece_cons_of_mem (c : Char) (s : Str) (h : '.' ∈ s) :
    lastPiece (c :: s) = lastPiece s := by
  unfold lastPiece
  rw [List.reverse_cons, takeWhile_append_left]
  exact ⟨'.', List.mem_reverse.2 h, by simp⟩

theorem lastPiece_dot_cons (s : Str) : lastPiece ('.' :: s) = lastPiece s := by
  by_cases h : '.' ∈ s
  · exact lastPiece_cons_of_mem _ _ h
  · rw [lastPiece_of_not_mem s h]
    unfold lastPiece
    rw [List.reverse_cons, List.takeWhile_append_of_pos]
    · simp
    · intro x hx
      have : x ∈ s := List.mem_reverse.1 hx
      simp only [ne_eq, decide_not, Bool.not_eq_true', decide_eq_false_iff_not]
      rintro rfl
      exact h this

theorem split_last (s : Str) : (split '.' s).getLast? = some (lastPiece s) := by
  induction s with
  | nil => rfl
  | cons c cs ih =>
    by_cases hc : c = '.'
    · subst hc
      cases h : split '.' cs with
      | nil => exact absurd h (split_ne_nil _ cs)
      | cons p ps =>
        rw [h] at ih
        simp only [split, if_true, h, lastPiece_dot_cons]
        rw [List.getLast?_cons_cons]
        exact ih
    · by_cases hm : '.' ∈ cs
      · cases h : split '.' cs with
        | nil => exact absurd h (split_ne_nil _ cs)
        | cons p ps =>
          rw [h] at ih
          cases ps with
          | nil =>
            have h2 := split_second '.' cs
            rw [h] at h2
            simp [hm] at h2
          | cons q qs =>
            simp only [split, hc, if_false, h, lastPiece_cons_of_mem c cs hm]
            rw [List.getLast?_cons_cons] at ih ⊢
            exact ih
      · have hm2 : '.' ∉ c :: cs := by
          simp only [List.mem_cons, not_or]
          exact ⟨fun e => hc e.symm, hm⟩
        rw [split_of_not_mem _ _ hm2, lastPiece_of_not_mem _ hm2]
        rfl

theorem takeWhile_of_not_mem (sep : Char) (s : Str) (h : sep ∉ s) :
    s.takeWhile (· ≠ sep) = s := by
  rw [List.takeWhile_eq_self_iff]
  intro x hx
  simp only [ne_eq, decide_not, Bool.not_eq_true', decide_eq_false_iff_not]
  rintro rfl
  exact h hx

theorem dropWhile_of_mem (sep : Char) (s : Str) (h : sep ∈ s) :
    ∃ rest, s.dropWhile (· ≠ sep) = sep :: rest := by
  induction s with
  | nil => simp at h
  | cons c cs ih =>
    by_cases hc : c = sep
    · exact ⟨cs, by simp [List.dropWhile_cons, hc]⟩
    · have hcs : sep ∈ cs := by
        rcases List.mem_cons.1 h with e | e
        · exact absurd e.symm hc
        · exact e
      obtain ⟨rest, hrest⟩ := ih hcs
      exact ⟨rest, by simpa [List.dropWhile_cons, hc] using hrest⟩

/-- On a type with at most one `/`, the piece the handler reads is the subtype of the
specification. -/
theorem secondPiece_eq_specSubtype (type : Str) (h : type.count '/' ≤ 1) :
    secondPiece type = specSubtype type := by
  unfold secondPiece specSubtype
  by_cases hm : '/' ∈ type
  · simp only [hm, if_true, Option.some.injEq]
    apply takeWhile_of_not_mem
    intro hrest
    have hsplit := List.takeWhile_append_dropWhile (fun c => decide (c ≠ '/')) type
    have hdrop := dropWhile_of_mem '/' type hm
    obtain ⟨rest, hrest2⟩ := hdrop
    rw [hrest2] at hsplit hrest
    simp only [List.drop_succ_cons, List.drop_zero] at hrest
    have hcount := congrArg (List.count '/') hsplit
    rw [List.count_append, List.count_cons_self] at hcount
    have : 0 < rest.count '/' := List.count_pos_iff.2 hrest
    omega
  · simp [hm]

/-- On a type with at most one `/`, the handler resolves the source format of the
specification. -/
theorem resolveSrc_eq_spec (file : File) (h : file.type.count '/' ≤ 1) :
    amendedSourceFormat file = specSourceFormat file := by
  unfold amendedSourceFormat specSourceFormat
  rw [secondPiece_eq_specSubtype _ h]

theorem resolveSrc_eq (file : File) : resolveSrc file = some (amendedSourceFormat file) := by
  unfold resolveSrc amendedSourceFormat secondPiece
  simp only [split_second, split_last]
  by_cases h : '/' ∈ file.type
  · simp only [h, if_true, falsy]
    generalize List.takeWhile (fun x => decide (x ≠ '/'))
        (List.drop 1 (List.dropWhile (fun x => decide (x ≠ '/')) file.type)) = sub
    cases hs : sub.isEmpty <;> simp [hs]
  · simp [h, falsy]

/-! ## Properties of the pattern replacement -/

theorem toLowerCase_append (a b : Str) : toLowerCase (a ++ b) = toLowerCase a ++ toLowerCase b := by
  simp [toLowerCase]

theorem toLowerCase_length (a : Str) : (toLowerCase a).length = a.length := by
  simp [toLowerCase]

theorem toLowerCase_drop (a : Str) (k : Nat) : toLowerCase (a.drop k) = (toLowerCase a).drop k := by
  simp [toLowerCase, List.map_drop]

theorem patternAlternatives_eq : patternAlternatives = patternExts.map ('.' :: ·) := by
  decide

theorem alternatives_suffix_free :
    ∀ a ∈ patternAlternatives, ∀ b ∈ patternAlternatives, a <:+ b → a = b := by
  decide

theorem matchesToEnd_iff (s : Str) : matchesToEnd s = true ↔ toLowerCase s ∈ patternAlternatives := by
  simp [matchesToEnd]

theorem not_matchesToEnd_nil : matchesToEnd [] = false := by decide

/-- A match is not contained in a longer match. -/
theorem no_longer_match (x m : Str) (hx : x ≠ []) (hm : matchesToEnd m = true) :
    matchesToEnd (x ++ m) = false := by
  by_contra h
  have h2 : matchesToEnd (x ++ m) = true := by simpa using h
  rw [matchesToEnd_iff] at hm h2
  rw [toLowerCase_append] at h2
  have := alternatives_suffix_free _ hm _ h2 ⟨toLowerCase x, rfl⟩
  have hlen := congrArg List.length this
  simp only [List.length_append, toLowerCase_length] at hlen
  have : x.length = 0 := by omega
  exact hx (List.length_eq_zero.1 this)

theorem replaceSourceExt_append (r m : Str) (hm : matchesToEnd m = true) :
    replaceSourceExt (r ++ m) = r := by
  induction r with
  | nil =>
    cases m with
    | nil => simp [not_matchesToEnd_nil] at hm
    | cons c cs => simp [replaceSourceExt, hm]
  | cons a r ih =>
    have : matchesToEnd (a :: r ++ m) = false := no_longer_match (a :: r) m (by simp) hm
    simp only [List.cons_append] at this
    simp [replaceSourceExt, this, ih]

theorem replaceSourceExt_of_no_match (s : Str) (h : ∀ m, m <:+ s → matchesToEnd m = false) :
    replaceSourceExt s = s := by
  induction s with
  | nil => rfl
  | cons c cs ih =>
    have h1 : matchesToEnd (c :: cs) = false := h _ (List.suffix_refl _)
    have h2 : ∀ m, m <:+ cs → matchesToEnd m = false :=
      fun m hm => h m (hm.trans (List.suffix_cons c cs))
    simp [replaceSourceExt, h1, ih h2]

/-- The replacement of the handler is the removal of a trailing extension among those its
pattern names. -/
theorem replaceSourceExt_eq_stripKnown (name : Str) :
    replaceSourceExt name = stripKnown patternExts name := by
  unfold stripKnown
  cases hf : patternExts.find? (fun e => ('.' :: e).isSuffixOf (toLowerCase name)) with
  | none =>
    simp only
    apply replaceSourceExt_of_no_match
    intro m hm
    by_contra hc
    have hc2 : matchesToEnd m = true := by simpa using hc
    rw [matchesToEnd_iff, patternAlternatives_eq, List.mem_map] at hc2
    obtain ⟨e, he, hem⟩ := hc2
    rw [List.find?_eq_none] at hf
    apply hf e he
    rw [List.isSuffixOf_iff_suffix, hem]
    obtain ⟨t, ht⟩ := hm
    exact ⟨toLowerCase t, by rw [← ht, toLowerCase_append]⟩
  | some e =>
    simp only
    have he := List.mem_of_find?_eq_some hf
    have hp := List.find?_some hf
    rw [List.isSuffixOf_iff_suffix, List.suffix_iff_eq_drop, toLowerCase_length] at hp
    have hm : matchesToEnd (name.drop (name.length - ('.' :: e).length)) = true := by
      rw [matchesToEnd_iff, toLowerCase_drop, ← hp, patternAlternatives_eq]
      exact List.mem_map.2 ⟨e, he, rfl⟩
    have := replaceSourceExt_append (name.take (name.length - ('.' :: e).length)) _ hm
    rwa [List.take_append_drop] at this

theorem supportedSourceExts_cases (e : Str) (h : e ∈ supportedSourceExts) :
    e = "avif".toList ∨ e ∈ patternExts := by
  simp only [supportedSourceExts, List.mem_cons, List.mem_singleton, List.not_mem_nil,
    or_false] at h
  rcases h with rfl | rfl | rfl | rfl | rfl | rfl | rfl | rfl | rfl | rfl
  all_goals first | exact Or.inl rfl | exact Or.inr (by decide)

theorem patternExts_subset (e : Str) (h : e ∈ patternExts) : e ∈ supportedSourceExts := by
  simp only [patternExts, List.mem_cons, List.mem_singleton, List.not_mem_nil, or_false] at h
  rcases h with rfl | rfl | rfl | rfl | rfl | rfl | rfl | rfl | rfl <;> decide

/-- On every name that does not end in `.avif`, the replacement of the handler removes exactly
what the specification calls a trailing known source extension. -/
theorem replaceSourceExt_eq_specStrip (name : Str)
    (h : ¬ ".avif".toList <:+ toLowerCase name) : replaceSourceExt name = specStrip name := by
  unfold specStrip stripKnown
  cases hf : supportedSourceExts.find? (fun e => ('.' :: e).isSuffixOf (toLowerCase name)) with
  | none =>
    simp only
    apply replaceSourceExt_of_no_match
    intro m hm
    by_contra hc
    have hc2 : matchesToEnd m = true := by simpa using hc
    rw [matchesToEnd_iff, patternAlternatives_eq, List.mem_map] at hc2
    obtain ⟨e, he, hem⟩ := hc2
    rw [List.find?_eq_none] at hf
    apply hf e (patternExts_subset e he)
    rw [List.isSuffixOf_iff_suffix, hem]
    obtain ⟨t, ht⟩ := hm
    exact ⟨toLowerCase t, by rw [← ht, toLowerCase_append]⟩
  | some e =>
    simp only
    have he := List.mem_of_find?_eq_some hf
    have hp := List.find?_some hf
    rw [List.isSuffixOf_iff_suffix] at hp
    have he2 : e ∈ patternExts := by
      rcases supportedSourceExts_cases e he with rfl | he2
      · exact absurd hp h
      · exact he2
    rw [List.suffix_iff_eq_drop, toLowerCase_length] at hp
    have hm : matchesToEnd (name.drop (name.length - ('.' :: e).length)) = true := by
      rw [matchesToEnd_iff, toLowerCase_drop, ← hp, patternAlternatives_eq]
      exact List.mem_map.2 ⟨e, he2, rfl⟩
    have := replaceSourceExt_append (name.take (name.length - ('.' :: e).length)) _ hm
    rwa [List.take_append_drop] at this

/-- For each extension of the pattern, in any letter case, the replacement leaves the stem. -/
theorem replaceSourceExt_stem (stem e : Str) (he : toLowerCase e ∈ patternExts) :
    replaceSourceExt (stem ++ '.' :: e) = stem := by
  apply replaceSourceExt_append
  rw [matchesToEnd_iff, patternAlternatives_eq]
  exact List.mem_map.2 ⟨toLowerCase e, he, by simp [toLowerCase]⟩

/-! ## Decimal numerals -/

theorem digitChar_value (d : Nat) (h : d < 10) : (Nat.digitChar d).toNat - 48 = d := by
  interval_cases d <;> rfl

theorem toDigitsCore_value (fuel : Nat) : ∀ (n : Nat) (ds : List Char), n < fuel →
    ∃ front, Nat.toDigitsCore 10 fuel n ds = front ++ ds ∧ digitsValue front = n := by
  induction fuel with
  | zero => intro n ds h; omega
  | succ fuel ih =>
    intro n ds h
    unfold Nat.toDigitsCore
    by_cases h0 : n / 10 = 0
    · refine ⟨[Nat.digitChar (n % 10)], by simp [h0], ?_⟩
      have : n % 10 = n := Nat.mod_eq_of_lt (by omega)
      have hd := digitChar_value (n % 10) (Nat.mod_lt _ (by decide))
      rw [this] at hd
      simp [digitsValue, this, hd]
    · obtain ⟨front, hf, hv⟩ := ih (n / 10) (Nat.digitChar (n % 10) :: ds) (by omega)
      refine ⟨front ++ [Nat.digitChar (n % 10)], by simp [h0, hf], ?_⟩
      unfold digitsValue at hv ⊢
      rw [List.foldl_append, hv]
      simp only [List.foldl_cons, List.foldl_nil]
      rw [digitChar_value (n % 10) (Nat.mod_lt _ (by decide))]
      omega

theorem digitsValue_decimal (n : Nat) : digitsValue (decimal n) = n := by
  obtain ⟨front, hf, hv⟩ := toDigitsCore_value (n + 1) n [] (by omega)
  unfold decimal Nat.toDigits
  rw [hf, List.append_nil, hv]

theorem decimal_injective : Function.Injective decimal := by
  intro a b h
  have := congrArg digitsValue h
  rwa [digitsValue_decimal, digitsValue_decimal] at this

/-! ## The fan-out loop -/

theorem mkItems_length (env : Env) (job : Job) (raws : List ImageData) :
    ∀ m i, (mkItems env job m i raws).length = raws.length := by
  induction raws with
  | nil => intro m i; rfl
  | cons r rs ih => intro m i; simp [mkItems, ih]

theorem mkItems_bufferedIndex (env : Env) (job : Job) (raws : List ImageData) :
    ∀ m i, (mkItems env job m i raws).map Item.bufferedIndex = List.range' i raws.length := by
  induction raws with
  | nil => intro m i; rfl
  | cons r rs ih => intro m i; simp [mkItems, ih, List.range'_succ]

theorem get?_length_append {α : Type} (front : List α) (a : α) (rest : List α) :
    (front ++ a :: rest).get? front.length = some a := by
  induction front with
  | nil => rfl
  | cons b front ih => simpa using ih

theorem emitItems_cons (env : Env) (job : Job) (enc : Encoder) (target : Str)
    (rawBuffer : List ImageData) (item : Item) (rest : List Item) (rf : ImageData)
    (hget : rawBuffer.get? item.bufferedIndex = some rf) :
    emitItems env job enc target rawBuffer (item :: rest) =
      match env.runEncoder enc rf with
      | none => ([], false)
      | some bytes =>
        (.result item.id ⟨bytes, "image/".toList ++ target⟩
            (pageName env job.file.name target item.bufferedIndex) ::
          (emitItems env job enc target rawBuffer rest).1,
         (emitItems env job enc target rawBuffer rest).2) := by
  simp only [emitItems, hget, emit, pageName]
  cases env.runEncoder enc rf <;> rfl

/-- What the loop over the items posts: result messages only, named after the pages in order
and carrying the ids of the items in order, up to the first page the encoder rejects. -/
theorem emitItems_mkItems (env : Env) (job : Job) (enc : Encoder) (target : Str)
    (raws : List ImageData) :
    ∀ (front : List ImageData) (m : Nat),
      filenames (emitItems env job enc target (front ++ raws)
          (mkItems env job m front.length raws)).1
        <+: (List.range' front.length raws.length).map (pageName env job.file.name target) ∧
      resultIds (emitItems env job enc target (front ++ raws)
          (mkItems env job m front.length raws)).1
        <+: (mkItems env job m front.length raws).map Item.id ∧
      (∀ msg ∈ (emitItems env job enc target (front ++ raws)
          (mkItems env job m front.length raws)).1, msg.isResult = true) ∧
      ((∀ p ∈ raws, (env.runEncoder enc p).isSome = true) →
        (emitItems env job enc target (front ++ raws)
          (mkItems env job m front.length raws)).1.length = raws.length ∧
        (emitItems env job enc target (front ++ raws)
          (mkItems env job m front.length raws)).2 = true) := by
  induction raws with
  | nil =>
    intro front m
    simp [mkItems, emitItems, filenames, resultIds]
  | cons rf rest ih =>
    intro front m
    have hget := get?_length_append front rf rest
    have hstep := emitItems_cons env job enc target (front ++ rf :: rest)
      ⟨env.nanoid m, job.file, job.format, front.length⟩
      (mkItems env job (m + 1) (front.length + 1) rest) rf hget
    have ih2 := ih (front ++ [rf]) (m + 1)
    simp only [List.append_assoc, List.singleton_append, List.length_append,
      List.length_singleton] at ih2
    obtain ⟨h1, h2, h3, h6⟩ := ih2
    rw [mkItems, hstep]
    cases henc : env.runEncoder enc rf with
    | none =>
      simp [filenames, resultIds, henc]
    | some bytes =>
      simp only [filenames, resultIds, List.length_cons, List.range'_succ, List.map_cons]
      refine ⟨?_, ?_, ?_, ?_⟩
      · exact (List.prefix_cons_inj _).2 h1
      · exact (List.prefix_cons_inj _).2 h2
      · intro msg hmsg
        rcases List.mem_cons.1 hmsg with rfl | hmsg
        · rfl
        · exact h3 msg hmsg
      · intro hall
        have := h6 (fun p hp => hall p (List.mem_cons_of_mem _ hp))
        simpa using this

theorem filenames_length_of_results (msgs : List Message)
    (h : ∀ msg ∈ msgs, msg.isResult = true) : (filenames msgs).length = msgs.length := by
  induction msgs with
  | nil => rfl
  | cons msg rest ih =>
    have hrest := ih (fun x hx => h x (List.mem_cons_of_mem _ hx))
    cases msg with
    | result id blob filename => simp [filenames, hrest]
    | announcement id items em len =>
      have := h _ (List.mem_cons_self _ _)
      simp [Message.isResult] at this

theorem resultIds_length_of_results (msgs : List Message)
    (h : ∀ msg ∈ msgs, msg.isResult = true) : (resultIds msgs).length = msgs.length := by
  induction msgs with
  | nil => rfl
  | cons msg rest ih =>
    have hrest := ih (fun x hx => h x (List.mem_cons_of_mem _ hx))
    cases msg with
    | result id blob filename => simp [resultIds, hrest]
    | announcement id items em len =>
      have := h _ (List.mem_cons_self _ _)
      simp [Message.isResult] at this

theorem handleJob_multi (env : Env) (minted : Nat) (job : Job) (enc : Encoder)
    (pages : List ImageData) (h : DecodesToPages env job enc pages) :
    handleJob env minted job =
      ⟨.announcement job.id (mkItems env job minted 0 pages) true pages.length ::
          (emitItems env job enc (resolveTarget job) pages (mkItems env job minted 0 pages)).1,
        minted + pages.length,
        (emitItems env job enc (resolveTarget job) pages (mkItems env job minted 0 pages)).2⟩ := by
  obtain ⟨dec, arrayBuffer, henc, hdec, hread, hpages⟩ := h
  simp [handleJob, henc, hdec, hread, hpages]

theorem handleJob_unsupported (env : Env) (minted : Nat) (job : Job) (h : Unsupported job) :
    handleJob env minted job = ⟨[], minted, true⟩ := by
  unfold handleJob
  rcases h with h | h
  · simp [h]
  · simp only [h]
    cases encoders (resolveTarget job) <;> rfl

theorem supported_target_cases (t : Str) (h : t ∈ supportedTargets) :
    t = "png".toList ∨ t = "jpeg".toList ∨ t = "webp".toList ∨ t = "avif".toList := by
  simpa [supportedTargets] using h

theorem extensions_of_supported (t : Str) (h : t ∈ supportedTargets) :
    extensions t = some (.ext (specExt t)) := by
  rcases supported_target_cases t h with rfl | rfl | rfl | rfl <;> decide

theorem pageName_eq_spec (env : Env) (name t : Str) (h : t ∈ supportedTargets)
    (hname : ¬ ".avif".toList <:+ toLowerCase name) (i : Nat) :
    pageName env name t i = specPageName name t (i + 1) := by
  simp [pageName, specPageName, extensions_of_supported t h, plusExt,
    replaceSourceExt_eq_specStrip name hname]

theorem plusExt_cancel (env : Env) (a b : Str) (ext : Option ExtValue)
    (h : plusExt env a ext = plusExt env b ext) : a = b := by
  cases ext with
  | none => exact List.append_cancel_right h
  | some v =>
    cases v with
    | ext text => exact List.append_cancel_right h
    | inherited key => exact List.append_cancel_right h

theorem pageName_injective (env : Env) (name t : Str) :
    Function.Injective (pageName env name t) := by
  intro i j h
  have h2 := plusExt_cancel env _ _ _ h
  have h3 := List.append_cancel_left h2
  have h4 : decimal (i + 1) = decimal (j + 1) := by
    injection h3
  have := decimal_injective h4
  omega

end Worker

namespace Worker

/-! ## Single-output jobs and the `.avif` extension -/

theorem matchesToEnd_avif_tails :
    ∀ m ∈ (".avif".toList).tails, matchesToEnd m = false := by
  decide

theorem avif_not_suffix_of_alternative :
    ∀ b ∈ patternAlternatives, ¬ (".avif".toList <:+ b) := by
  decide

theorem replaceSourceExt_avif (stem : Str) :
    replaceSourceExt (stem ++ ".avif".toList) = stem ++ ".avif".toList := by
  apply replaceSourceExt_of_no_match
  intro m hm
  rcases List.suffix_or_suffix_of_suffix hm (List.suffix_append stem ".avif".toList) with h | h
  · exact matchesToEnd_avif_tails m ((List.mem_tails _ _).2 h)
  · by_contra hc
    have hc2 : matchesToEnd m = true := by simpa using hc
    rw [matchesToEnd_iff] at hc2
    obtain ⟨x, hx⟩ := h
    apply avif_not_suffix_of_alternative _ hc2
    rw [← hx, toLowerCase_append]
    exact ⟨toLowerCase x, rfl⟩

/-- A job with a supported target whose decoder returns one image and whose encoder returns
`bytes` posts one result under the job's id, named by the replaced file name followed by the
extension of the target. -/
theorem handleJob_single (env : Env) (minted : Nat) (job : Job) (enc : Encoder) (dec : Decoder)
    (arrayBuffer bytes : Bytes) (image : ImageData)
    (hsup : resolveTarget job ∈ supportedTargets)
    (henc : encoders (resolveTarget job) = some enc)
    (hdec : decoders (resolveSrc job.file) = some dec)
    (hread : env.fileToArrayBuffer job.file = some arrayBuffer)
    (himage : env.runDecoder dec arrayBuffer (resolveTarget job) = some (.single image))
    (hbytes : env.runEncoder enc image = some bytes) :
    handleJob env minted job =
      ⟨[.result job.id ⟨bytes, "image/".toList ++ resolveTarget job⟩
          (replaceSourceExt job.file.name ++ specExt (resolveTarget job))], minted, true⟩ := by
  simp [handleJob, henc, hdec, hread, himage, emit, hbytes,
    extensions_of_supported _ hsup, plusExt]

/-! ## The batch loop -/

theorem lookup_eq_none_iff {α : Type} (table : List (Str × α)) (key : Str) :
    table.lookup key = none ↔ key ∉ table.map Prod.fst := by
  induction table with
  | nil => simp
  | cons kv rest ih =>
    obtain ⟨k, v⟩ := kv
    by_cases h : key = k
    · subst h
      simp only [List.lookup, beq_self_eq_true, List.map_cons, List.mem_cons, true_or,
        not_true_eq_false]
      exact ⟨fun hc => Option.noConfusion hc, fun hc => hc.elim⟩
    · have hb : (key == k) = false := beq_false_of_ne h
      simp only [List.lookup, hb, ih, List.map_cons, List.mem_cons, h, false_or]

/-- The targets the capability lookup rejects: those that are neither a key of the `encoders`
object nor a name inherited from `Object.prototype`. -/
theorem encoders_eq_none_iff (target : Str) :
    encoders target = none ↔ target ∉ supportedTargets ∧ target ∉ objectPrototypeKeys := by
  have hk : ∀ t : Str, t ∈ encodersTable.map Prod.fst ↔ t ∈ supportedTargets := by
    intro t
    simp only [encodersTable, supportedTargets, List.map_cons, List.map_nil, List.mem_cons,
      List.mem_singleton, List.not_mem_nil, or_false]
    tauto
  unfold encoders getProp
  cases h : encodersTable.lookup target with
  | some v =>
    have hmem : target ∈ supportedTargets := by
      rw [← hk]
      by_contra hc
      rw [← lookup_eq_none_iff, h] at hc
      exact Option.noConfusion hc
    exact ⟨fun hc => Option.noConfusion hc, fun hc => absurd hmem hc.1⟩
  | none =>
    rw [lookup_eq_none_iff, hk] at h
    by_cases hp : target ∈ objectPrototypeKeys
    · have : objectPrototypeKeys.contains target = true := by simpa using hp
      simp only [this, if_true]
      exact ⟨fun hc => Option.noConfusion hc, fun hc => absurd hp hc.2⟩
    · have : objectPrototypeKeys.contains target = false := by simpa using hp
      simp only [this, Bool.false_eq_true, if_false, true_iff]
      exact ⟨h, hp⟩

theorem onmessage_cons_unsupported (env : Env) (minted : Nat) (job : Job) (post : List Job)
    (h : Unsupported job) : onmessage env minted (job :: post) = onmessage env minted post := by
  simp [onmessage, handleJob_unsupported env minted job h]

theorem onmessage_skip (env : Env) (front : List Job) (job : Job) (post : List Job)
    (h : Unsupported job) :
    ∀ minted, onmessage env minted (front ++ job :: post) = onmessage env minted (front ++ post) := by
  induction front with
  | nil => intro minted; exact onmessage_cons_unsupported env minted job post h
  | cons j front ih =>
    intro minted
    simp only [List.cons_append]
    rw [onmessage, onmessage, ih]

theorem filenames_handleJob_nodup (env : Env) (minted : Nat) (job : Job) :
    (filenames (handleJob env minted job).posted).Nodup := by
  cases henc : encoders (resolveTarget job) with
  | none => simp [handleJob_unsupported env minted job (Or.inl henc), filenames]
  | some enc =>
    cases hdec : decoders (resolveSrc job.file) with
    | none => simp [handleJob_unsupported env minted job (Or.inr hdec), filenames]
    | some dec =>
      cases hread : env.fileToArrayBuffer job.file with
      | none => simp [handleJob, henc, hdec, hread, filenames]
      | some arrayBuffer =>
        cases hdecoded : env.runDecoder dec arrayBuffer (resolveTarget job) with
        | none => simp [handleJob, henc, hdec, hread, hdecoded, filenames]
        | some decoded =>
          cases decoded with
          | single image =>
            cases hemit : emit env job.id enc image
                (plusExt env (replaceSourceExt job.file.name) (extensions (resolveTarget job)))
                (resolveTarget job) with
            | none => simp [handleJob, henc, hdec, hread, hdecoded, hemit, filenames]
            | some msg =>
              cases msg <;> simp [handleJob, henc, hdec, hread, hdecoded, hemit, filenames]
          | multi pages =>
            rw [handleJob_multi env minted job enc pages ⟨dec, arrayBuffer, henc, hdec, hread, hdecoded⟩]
            simp only [filenames]
            have h := (emitItems_mkItems env job enc (resolveTarget job) pages [] minted).1
            simp only [List.nil_append, List.length_nil] at h
            apply List.Nodup.sublist h.sublist
            exact (List.nodup_range' _ _).map (pageName_injective _ _ _)

/-! ## The claims about the worker -/

/-- C1, as stated, fails: the two-page job `brokenPageJob` reaches the decoder, which returns
two pages, but the encoder throws on the second page; the handler has then posted the
announcement and one result, not the two results of the fan-out contract. -/
theorem C1_encoder_throw_counterexample :
    DecodesToPages sampleEnv brokenPageJob .encode_avif [⟨1, 1, [7]⟩, ⟨1, 1, [0]⟩] ∧
    (handleJob sampleEnv 0 brokenPageJob).posted.length = 2 ∧
    ¬ FanOutContract brokenPageJob.id 2 (handleJob sampleEnv 0 brokenPageJob).posted := by
  refine ⟨⟨.decode_pdf, [7, 0], by decide, by decide, rfl, rfl⟩, by decide, ?_⟩
  rintro ⟨items, results, hposted, -, hlen, -⟩
  have h2 : (handleJob sampleEnv 0 brokenPageJob).posted.length = 2 := by decide
  rw [hposted, List.length_cons, hlen] at h2
  omega

/-- C1 (amended): for every job whose decoder returns a sequence of N raster images, each of
which the encoder encodes without throwing, the handler posts exactly one announcement with
emitMultiple = true, length = N and N items, followed by exactly N single-result messages; the
i-th result carries the id of the i-th announced item, and the items' bufferedIndex values are
exactly 0, 1, ..., N-1. -/
theorem C1_fan_out (env : Env) (minted : Nat) (job : Job) (enc : Encoder)
    (pages : List ImageData) (h : DecodesToPages env job enc pages)
    (hok : ∀ p ∈ pages, (env.runEncoder enc p).isSome = true) :
    FanOutContract job.id pages.length (handleJob env minted job).posted := by
  rw [handleJob_multi env minted job enc pages h]
  obtain ⟨-, h2, h3, h4⟩ := emitItems_mkItems env job enc (resolveTarget job) pages [] minted
  simp only [List.nil_append, List.length_nil] at h2 h3 h4
  obtain ⟨hlen, -⟩ := h4 hok
  refine ⟨mkItems env job minted 0 pages, _, rfl, mkItems_length env job pages minted 0, hlen,
    h3, ?_, ?_⟩
  · apply h2.eq_of_length
    rw [resultIds_length_of_results _ h3, hlen, List.length_map, mkItems_length]
  · rw [mkItems_bufferedIndex, List.range_eq_range']

/-- C1 (amended), at the three-page job `reportJob`. -/
theorem C1_fan_out_witness :
    DecodesToPages sampleEnv reportJob .encode_jpeg [⟨1, 1, [7]⟩, ⟨1, 1, [8]⟩, ⟨1, 1, [9]⟩] ∧
    FanOutContract reportJob.id 3 (handleJob sampleEnv 0 reportJob).posted :=
  have hd : DecodesToPages sampleEnv reportJob .encode_jpeg
      [⟨1, 1, [7]⟩, ⟨1, 1, [8]⟩, ⟨1, 1, [9]⟩] :=
    ⟨.decode_pdf, [7, 8, 9], by decide, by decide, rfl, rfl⟩
  ⟨hd, C1_fan_out sampleEnv 0 reportJob .encode_jpeg _ hd (by decide)⟩

/-- For every multi-page job with a file name F that does not end in `.avif`, supported target
t and N decoded pages, the k-th result message posted (k = 1, 2, ..., in that order) has the
file name strip(F) + "-" + decimal(k) + ext(t); there are at most N of them, and exactly the N
names for k = 1..N when every page is encoded. -/
theorem page_filenames (env : Env) (minted : Nat) (job : Job) (enc : Encoder)
    (pages : List ImageData) (h : DecodesToPages env job enc pages)
    (hsup : resolveTarget job ∈ supportedTargets)
    (hname : ¬ ".avif".toList <:+ toLowerCase job.file.name) :
    (∀ k, k < (filenames (handleJob env minted job).posted).length →
      (filenames (handleJob env minted job).posted).get? k =
        some (specPageName job.file.name (resolveTarget job) (k + 1))) ∧
    (filenames (handleJob env minted job).posted).length ≤ pages.length ∧
    ((∀ p ∈ pages, (env.runEncoder enc p).isSome = true) →
      filenames (handleJob env minted job).posted =
        (List.range pages.length).map
          (fun k => specPageName job.file.name (resolveTarget job) (k + 1))) := by
  rw [handleJob_multi env minted job enc pages h]
  obtain ⟨h1, -, h3, h4⟩ := emitItems_mkItems env job enc (resolveTarget job) pages [] minted
  simp only [List.nil_append, List.length_nil] at h1 h3 h4
  have hnames : (List.range' 0 pages.length).map
      (pageName env job.file.name (resolveTarget job)) =
      (List.range pages.length).map
        (fun k => specPageName job.file.name (resolveTarget job) (k + 1)) := by
    rw [List.range_eq_range']
    exact List.map_congr_left (fun i _ => pageName_eq_spec env _ _ hsup hname i)
  rw [hnames] at h1
  simp only [filenames]
  refine ⟨?_, ?_, ?_⟩
  · intro k hk
    obtain ⟨t, ht⟩ := h1
    have hk2 : k < pages.length := by
      have := congrArg List.length ht
      simp only [List.length_append, List.length_map, List.length_range] at this
      omega
    have h5 : ((List.range pages.length).map
        (fun k => specPageName job.file.name (resolveTarget job) (k + 1))).get? k =
        some (specPageName job.file.name (resolveTarget job) (k + 1)) := by
      simp [List.getElem?_range hk2]
    rw [← ht] at h5
    rw [← h5]
    simp [List.getElem?_append_left hk]
  · have := h1.length_le
    simpa using this
  · intro hok
    obtain ⟨hlen, -⟩ := h4 hok
    apply h1.eq_of_length
    rw [filenames_length_of_results _ h3, hlen]
    simp

/-- The example of the specification: the three-page `report.pdf` with target jpeg yields
`report-1.jpg`, `report-2.jpg`, `report-3.jpg`, in that order. -/
theorem page_filenames_report :
    DecodesToPages sampleEnv reportJob .encode_jpeg [⟨1, 1, [7]⟩, ⟨1, 1, [8]⟩, ⟨1, 1, [9]⟩] ∧
    resolveTarget reportJob ∈ supportedTargets ∧
    filenames (handleJob sampleEnv 0 reportJob).posted =
      ["report-1.jpg".toList, "report-2.jpg".toList, "report-3.jpg".toList] :=
  have hd : DecodesToPages sampleEnv reportJob .encode_jpeg
      [⟨1, 1, [7]⟩, ⟨1, 1, [8]⟩, ⟨1, 1, [9]⟩] :=
    ⟨.decode_pdf, [7, 8, 9], by decide, by decide, rfl, rfl⟩
  ⟨hd, by decide,
    ((page_filenames sampleEnv 0 reportJob .encode_jpeg _ hd (by decide) (by decide)).2.2
      (by decide)).trans (by decide)⟩

/-- C2 fails on the code for a file name that ends in `.avif`: the two-page PDF named
`scan.avif` with target jpeg is emitted as `scan.avif-1.jpg`, `scan.avif-2.jpg`, where
strip(F) + "-" + decimal(k) + ext(t) is `scan-1.jpg`, `scan-2.jpg`. -/
theorem C2_avif_name_kept :
    DecodesToPages sampleEnv misnamedPdfJob .encode_jpeg [⟨1, 1, [7]⟩, ⟨1, 1, [8]⟩] ∧
    filenames (handleJob sampleEnv 0 misnamedPdfJob).posted =
      ["scan.avif-1.jpg".toList, "scan.avif-2.jpg".toList] ∧
    (List.range 2).map (fun k => specPageName misnamedPdfJob.file.name
        (resolveTarget misnamedPdfJob) (k + 1)) =
      ["scan-1.jpg".toList, "scan-2.jpg".toList] :=
  ⟨⟨.decode_pdf, [7, 8], by decide, by decide, rfl, rfl⟩, by decide, by decide⟩

/-- C3 fails on the code for the extension avif: the pattern of the handler does not name it, so
for every stem the name `stem.avif` is left as it is, and the single-output job for
`photo.avif` with target png is emitted as `photo.avif.png` instead of `photo.png`. -/
theorem C3_avif_extension_kept :
    (∀ stem : Str, replaceSourceExt (stem ++ ".avif".toList) = stem ++ ".avif".toList) ∧
    toLowerCase "avif".toList ∈ supportedSourceExts ∧
    (handleJob sampleEnv 0 avifJob).posted =
      [.result "job".toList ⟨[1, 2, 3], "image/png".toList⟩ "photo.avif.png".toList] :=
  ⟨replaceSourceExt_avif, by decide, by decide⟩

/-- Every job the capability lookup rejects posts no message, and the run of the batch (the
messages posted, in order) is the run of the same batch with that job removed. -/
theorem rejected_job_leaves_batch (env : Env) (minted : Nat) (front : List Job) (job : Job)
    (post : List Job) (h : Unsupported job) :
    (∀ m, (handleJob env m job).posted = []) ∧
    onmessage env minted (front ++ job :: post) = onmessage env minted (front ++ post) :=
  ⟨fun m => by rw [handleJob_unsupported env m job h],
   onmessage_skip env front job post h minted⟩

/-- The lookup rejects the target `bmp` and the source-only formats heif, heic and pdf: a job
with target `bmp` between two supported jobs leaves their results as they are. -/
theorem rejected_job_example :
    Unsupported bmpJob ∧
    encoders "heif".toList = none ∧ encoders "heic".toList = none ∧
    encoders "pdf".toList = none ∧
    onmessage sampleEnv 0 ([reportJob] ++ bmpJob :: [avifJob]) =
      onmessage sampleEnv 0 ([reportJob] ++ [avifJob]) :=
  ⟨Or.inl (by decide), by decide, by decide, by decide,
   (rejected_job_leaves_batch sampleEnv 0 [reportJob] bmpJob [avifJob] (Or.inl (by decide))).2⟩

/-- C4 fails on the code for a target named like a member of `Object.prototype`: `constructor`
is no key of the `encoders` object, yet the lookup finds the inherited function, the job is not
dropped and a result message is posted; for `__proto__` the lookup finds an object that cannot
be called, the handler ends with an exception and the supported job after it posts nothing. -/
theorem C4_inherited_name_not_dropped :
    ("constructor".toList ∉ supportedTargets ∧
      encoders (resolveTarget constructorJob) = some (.inherited "constructor".toList) ∧
      (handleJob sampleEnv 0 constructorJob).posted =
        [.result "c".toList ⟨[], "image/constructor".toList⟩
          "iconfunction Object() \x7b [native code] \x7d".toList]) ∧
    ("__proto__".toList ∉ supportedTargets ∧
      (onmessage sampleEnv 0 [protoJob, avifJob]).posted = [] ∧
      (onmessage sampleEnv 0 [avifJob]).posted =
        [.result "job".toList ⟨[1, 2, 3], "image/png".toList⟩ "photo.avif.png".toList]) := by
  decide

/-- C5, as stated, fails: in the batch of `photo.png` and `photo.webp`, both with target jpeg,
both results are named `photo.jpg`. -/
theorem C5_same_name_counterexample :
    filenames (onmessage sampleEnv 0 clashBatch).posted =
      ["photo.jpg".toList, "photo.jpg".toList] ∧
    ¬ (filenames (onmessage sampleEnv 0 clashBatch).posted).Nodup := by
  decide

/-- C5 (amended): for every job, the file names of the result messages posted for that one job
are pairwise distinct. -/
theorem C5_filenames_distinct_within_job (env : Env) (minted : Nat) (job : Job) :
    (filenames (handleJob env minted job).posted).Nodup :=
  filenames_handleJob_nodup env minted job

/-- C6, as stated, fails: for the type `image/png/x` the handler resolves the source format
`png`, the piece between the first and the second "/", where the text after the "/" of the
type is `png/x`. -/
theorem C6_two_slash_counterexample :
    resolveSrc twoSlashFile = some "png".toList ∧
    specSourceFormat twoSlashFile = "png/x".toList ∧
    resolveSrc twoSlashFile ≠ some (specSourceFormat twoSlashFile) := by
  decide

/-- C6 (amended): for every job, the resolved source format is the text of the file's type
between its first "/" and the next "/" (or the end) when that is present and non-empty, and
otherwise the lower-cased extension of the file's name (the text after its last ".", all of the
name when it has none); the target format is the caller-specified format lower-cased. -/
theorem C6_format_resolution (job : Job) :
    resolveSrc job.file = some (amendedSourceFormat job.file) ∧
    resolveTarget job = toLowerCase job.format :=
  ⟨resolveSrc_eq job.file, rfl⟩

end Worker

namespace Modules

/-! ## The module singletons -/

theorem invoke_instances_ne (s : State) (f : Fn) (k : Kind) (h : f.kind ≠ k) :
    (invoke s f).1.instances k = s.instances k := by
  cases f <;> simp only [Fn.kind] at h <;> simp only [invoke, decode_xml, decode_svg] <;> (repeat' split) <;>
    simp [State.instances, List.filter_append, h]

theorem invoke_uses_ne (s : State) (f : Fn) (k : Kind) (h : f.kind ≠ k) :
    (invoke s f).1.uses k = s.uses k := by
  cases f <;> simp only [Fn.kind] at h <;> simp only [invoke, decode_xml, decode_svg] <;> (repeat' split) <;>
    simp [State.uses, List.filter_append, h]

theorem invoke_slot_ne (s : State) (f : Fn) (k : Kind) (h : f.kind ≠ k) :
    (invoke s f).1.slot k = s.slot k := by
  cases f <;> cases k <;> simp only [Fn.kind, ne_eq, not_true_eq_false] at h <;>
    simp only [invoke, decode_xml, decode_svg] <;> (repeat' split) <;> simp [State.slot]

theorem invoke_pending_kind (s : State) (f : Fn) (k : Kind) (inst : Option Nat)
    (h : (invoke s f).2 = some (.awaitModule k inst)) : f.kind = k := by
  cases f <;> simp only [invoke, decode_xml, decode_svg] at h <;> (repeat' split at h) <;> simp_all [Fn.kind]

/-- For every module but the renderer, the calls that get as far as the module are the calls of
its functions: only `decode_xml` can end earlier. -/
theorem reaches_eq (f : Fn) (k : Kind) (hk : k ≠ .resvg) :
    f.reaches k = decide (f.kind = k) := by
  cases f <;> cases k <;> simp [Fn.reaches, Fn.reachesModule, Fn.kind] at hk ⊢

theorem cached_ne_resvg (k : Kind) (hk : k.cached = true) : k ≠ .resvg := by
  rintro rfl
  simp [Kind.cached] at hk

theorem step_start_state (w : World) (f : Fn) :
    (w.step (.start f)).state = (invoke w.state f).1 := by
  simp only [World.step]
  rcases hi : invoke w.state f with ⟨s, _ | p⟩ <;> rfl

theorem step_start_pending (w : World) (f : Fn) :
    (w.step (.start f)).pending = w.pending ++ (invoke w.state f).2.toList := by
  simp only [World.step]
  rcases hi : invoke w.state f with ⟨s, _ | p⟩ <;> simp

theorem invoke_pdfReady (s : State) (f : Fn) (h : s.pdfReady = s.workerPort.isSome) :
    (invoke s f).1.pdfReady = (invoke s f).1.workerPort.isSome := by
  cases f <;> simp only [invoke, decode_xml, decode_svg] <;> (repeat' split) <;> simp [h]

/-- What the start of a call of a cached kind does to the slot, the instances and the uses of
its kind, and which instance the call holds. -/
theorem invoke_cached (s : State) (f : Fn) (hc : f.kind.cached = true)
    (hpdf : s.pdfReady = s.workerPort.isSome)
    (hinst : s.instances f.kind = (s.slot f.kind).toList) :
    ∃ n, (invoke s f).1.slot f.kind = some n ∧
      (invoke s f).1.instances f.kind = [n] ∧
      (s.slot f.kind = none ∨ s.slot f.kind = some n) ∧
      (∀ u ∈ (invoke s f).1.uses f.kind, u ∈ s.uses f.kind ∨ u = some n) ∧
      (∀ p, (invoke s f).2 = some p → p = .awaitModule f.kind (some n)) := by
  cases f
  case decode_heif => simp [Fn.kind, Kind.cached] at hc
  case decode_svg => simp [Fn.kind, Kind.cached] at hc
  case decode_xml => simp [Fn.kind, Kind.cached] at hc
  case encode_avif =>
    simp only [Fn.kind, State.slot] at hinst ⊢
    cases hs : s.emscriptenModuleAVIF_ENC with
    | none =>
      rw [hs] at hinst
      refine ⟨s.fresh, ?_⟩
      simp only [State.instances] at hinst
      simp [invoke, hs, State.instances, State.uses, List.filter_append, hinst]
      exact fun u hu => Or.inl hu
    | some m =>
      rw [hs] at hinst
      refine ⟨m, ?_⟩
      simp [invoke, hs, hinst]
      exact fun u hu => Or.inl hu
  case encode_webp =>
    simp only [Fn.kind, State.slot] at hinst ⊢
    cases hs : s.emscriptenModuleWEBP with
    | none =>
      rw [hs] at hinst
      refine ⟨s.fresh, ?_⟩
      simp only [State.instances] at hinst
      simp [invoke, hs, State.instances, State.uses, List.filter_append, hinst]
      exact fun u hu => Or.inl hu
    | some m =>
      rw [hs] at hinst
      refine ⟨m, ?_⟩
      simp [invoke, hs, hinst]
      exact fun u hu => Or.inl hu
  case decode_avif =>
    simp only [Fn.kind, State.slot] at hinst ⊢
    cases hs : s.emscriptenModuleAVIF with
    | none =>
      rw [hs] at hinst
      refine ⟨s.fresh, ?_⟩
      simp only [State.instances] at hinst
      simp [invoke, hs, State.instances, State.uses, List.filter_append, hinst]
      exact fun u hu => Or.inl hu
    | some m =>
      rw [hs] at hinst
      refine ⟨m, ?_⟩
      simp [invoke, hs, hinst]
      exact fun u hu => Or.inl hu
  case decode_pdf =>
    simp only [Fn.kind, State.slot] at hinst ⊢
    cases hs : s.workerPort with
    | none =>
      rw [hs] at hinst hpdf
      refine ⟨s.fresh, ?_⟩
      simp only [State.instances] at hinst
      simp only [Option.isSome_none] at hpdf
      simp [invoke, hpdf, State.instances, State.uses, List.filter_append, hinst]
    | some m =>
      rw [hs] at hinst hpdf
      simp only [Option.isSome_some] at hpdf
      simp only [State.instances] at hinst
      refine ⟨m, ?_, ?_, ?_, ?_, ?_⟩
      · simp [invoke, hpdf, hs]
      · simp [invoke, hpdf, State.instances, hinst]
      · exact Or.inr rfl
      · intro u hu
        simp only [invoke, hpdf, if_true, State.uses, List.filter_append, List.map_append,
          List.mem_append, hs] at hu
        rcases hu with hu | hu
        · exact Or.inl hu
        · right
          simpa using hu
      · simp [invoke, hpdf]

theorem inv_initial : World.initial.Inv := by
  refine ⟨rfl, ?_⟩
  intro k hk
  cases k <;> simp [World.initial, State.initial, State.instances, State.uses, State.slot]

theorem inv_start (w : World) (f : Fn) (h : w.Inv) : (w.step (.start f)).Inv := by
  obtain ⟨hpdf, hk⟩ := h
  refine ⟨?_, ?_⟩
  · rw [step_start_state]
    exact invoke_pdfReady _ _ hpdf
  · intro k hkc
    obtain ⟨hi, hu, hp⟩ := hk k hkc
    rw [step_start_state, step_start_pending]
    by_cases hfk : f.kind = k
    · subst hfk
      obtain ⟨n, h1, h2, h3, h4, h5⟩ := invoke_cached w.state f hkc hpdf hi
      refine ⟨by rw [h1, h2]; rfl, ?_, ?_⟩
      · intro u hu2
        rcases h4 u hu2 with hold | hnew
        · obtain ⟨ha, hb⟩ := hu u hold
          rcases h3 with h3 | h3
          · rw [hb, h3] at ha
            simp at ha
          · exact ⟨ha, by rw [hb, h3, h1]⟩
        · rw [hnew, h1]
          exact ⟨rfl, rfl⟩
      · intro inst hmem
        rcases List.mem_append.1 hmem with hold | hnew
        · obtain ⟨ha, hb⟩ := hp inst hold
          rcases h3 with h3 | h3
          · rw [hb, h3] at ha
            simp at ha
          · exact ⟨ha, by rw [hb, h3, h1]⟩
        · have := h5 _ (Option.mem_toList.1 hnew)
          injection this with _ hinst
          rw [hinst, h1]
          exact ⟨rfl, rfl⟩
    · rw [invoke_instances_ne _ _ _ hfk, invoke_uses_ne _ _ _ hfk, invoke_slot_ne _ _ _ hfk]
      refine ⟨hi, hu, ?_⟩
      intro inst hmem
      rcases List.mem_append.1 hmem with hold | hnew
      · exact hp inst hold
      · exact absurd (invoke_pending_kind _ _ _ _ (Option.mem_toList.1 hnew)) hfk

theorem inv_proceed (w : World) (i : Nat) (h : w.Inv) : (w.step (.proceed i)).Inv := by
  obtain ⟨hpdf, hk⟩ := h
  simp only [World.step]
  cases hget : w.pending.get? i with
  | none => exact ⟨hpdf, hk⟩
  | some p =>
    have hpmem : p ∈ w.pending := List.get?_mem hget
    cases p with
    | awaitModule k0 inst =>
      refine ⟨hpdf, ?_⟩
      intro k hkc
      obtain ⟨hi, hu, hp⟩ := hk k hkc
      refine ⟨hi, ?_, ?_⟩
      · intro u hu2
        simp only [resume, State.uses, List.filter_append, List.map_append,
          List.mem_append] at hu2
        rcases hu2 with hold | hnew
        · exact hu u hold
        · by_cases hkk : k0 = k
          · subst hkk
            simp at hnew
            rw [hnew]
            exact hp inst hpmem
          · simp [hkk] at hnew
      · intro inst2 hmem
        exact hp inst2 (List.mem_of_mem_eraseIdx hmem)
    | awaitInitResvg =>
      refine ⟨hpdf, ?_⟩
      intro k hkc
      have hne : Kind.resvg ≠ k := by
        rintro rfl
        simp [Kind.cached] at hkc
      obtain ⟨hi, hu, hp⟩ := hk k hkc
      have hslot : (resume w.state .awaitInitResvg).slot k = w.state.slot k := by
        cases k <;> rfl
      refine ⟨?_, ?_, ?_⟩
      · rw [hslot]
        exact hi
      · intro u hu2
        rw [hslot]
        apply hu
        simpa [resume, State.uses, List.filter_append, hne] using hu2
      · intro inst2 hmem
        rw [hslot]
        exact hp inst2 (List.mem_of_mem_eraseIdx hmem)

theorem inv_run (es : List Event) : ∀ w : World, w.Inv → (w.run es).Inv := by
  induction es with
  | nil => intro w h; exact h
  | cons e es ih =>
    intro w h
    apply ih
    cases e with
    | start f => exact inv_start w f h
    | proceed i => exact inv_proceed w i h

theorem singleton_of_inv (w : World) (h : w.Inv) (k : Kind) (hk : k.cached = true) :
    Singleton w.state k := by
  obtain ⟨hi, hu, -⟩ := h.2 k hk
  refine ⟨?_, ?_⟩
  · rw [hi]
    cases w.state.slot k <;> simp
  · intro u hmem
    obtain ⟨ha, hb⟩ := hu u hmem
    rw [hi, ← hb]
    cases u with
    | none => simp at ha
    | some n => exact ⟨n, rfl, rfl⟩

theorem resume_instances (s : State) (p : Pending) (k : Kind) :
    (resume s p).instances k = s.instances k := by
  cases p <;> rfl

theorem step_instances_length (w : World) (e : Event) (h : w.Inv) (k : Kind)
    (hk : k.cached = true) :
    ((w.step e).state.instances k).length =
      if (match e with | .start f => decide (f.kind = k) | .proceed _ => false) = true then 1
      else (w.state.instances k).length := by
  cases e with
  | start f =>
    rw [step_start_state]
    by_cases hfk : f.kind = k
    · subst hfk
      obtain ⟨n, -, h2, -⟩ := invoke_cached w.state f hk h.1 (h.2 _ hk).1
      simp [h2]
    · simp [hfk, invoke_instances_ne _ _ _ hfk]
  | proceed i =>
    simp only [World.step]
    cases hget : w.pending.get? i with
    | none => simp
    | some p => simp [resume_instances]

theorem run_instances_length (es : List Event) (k : Kind) (hk : k.cached = true) :
    ∀ w : World, w.Inv →
      ((w.run es).state.instances k).length =
        if 1 ≤ (w.state.instances k).length + startsOf k es then 1 else 0 := by
  induction es with
  | nil =>
    intro w h
    have := (singleton_of_inv w h k hk).1
    simp only [World.run, List.foldl_nil, startsOf, List.filter_nil, List.length_nil,
      Nat.add_zero]
    split_ifs <;> omega
  | cons e es ih =>
    intro w h
    have h2 : (w.step e).Inv := by
      cases e with
      | start f => exact inv_start w f h
      | proceed i => exact inv_proceed w i h
    have hstep := step_instances_length w e h k hk
    have hrec := ih (w.step e) h2
    have hle := (singleton_of_inv w h k hk).1
    simp only [World.run, List.foldl_cons] at hrec ⊢
    rw [hrec, hstep]
    cases e with
    | start f =>
      by_cases hfk : f.kind = k
      · have hs : startsOf k (.start f :: es) = startsOf k es + 1 := by
          simp [startsOf, List.filter_cons, reaches_eq f k (cached_ne_resvg k hk), hfk]
        rw [hs]
        simp only [hfk, decide_True, if_true]
        split_ifs <;> omega
      · have hs : startsOf k (.start f :: es) = startsOf k es := by
          simp [startsOf, List.filter_cons, reaches_eq f k (cached_ne_resvg k hk), hfk]
        rw [hs]
        simp only [hfk, decide_False, Bool.false_eq_true, if_false]
    | proceed i =>
      have hs : startsOf k (.proceed i :: es) = startsOf k es := by
        simp [startsOf, List.filter_cons]
      rw [hs]
      simp only [Bool.false_eq_true, if_false]

theorem singletonOnFirstUse_run (es : List Event) (k : Kind) (hk : k.cached = true) :
    SingletonOnFirstUse (World.run World.initial es).state k (startsOf k es) := by
  refine ⟨singleton_of_inv _ (inv_run es _ inv_initial) k hk, ?_⟩
  rw [run_instances_length es k hk _ inv_initial]
  have : World.initial.state.instances k = [] := by
    cases k <;> rfl
  rw [this]
  simp only [List.length_nil, Nat.zero_add]
  split_ifs <;> omega

/-! ## Calls that do not overlap -/

theorem resvgInv_initial : State.initial.ResvgInv := by
  simp [State.ResvgInv, State.initial, State.instances, State.uses]

theorem old_uses_empty (s : State) (hw : s.resvgWasm = none)
    (h3 : ∀ u ∈ s.uses .resvg, u.isSome = true ∧ u = s.resvgWasm) : s.uses .resvg = [] := by
  apply List.eq_nil_iff_forall_not_mem.2
  intro u hu
  obtain ⟨ha, hb⟩ := h3 u hu
  rw [hb, hw] at ha
  simp at ha

/-- A call of `decode_xml` whose `transform` throws leaves the module-level state as it was:
no renderer is created. -/
theorem call_decode_xml_throws (s : State) : call s (.decode_xml false) = s := rfl

/-- A call of `decode_xml` whose `transform` returns goes on as `decode_svg`. -/
theorem call_decode_xml_transformed (s : State) :
    call s (.decode_xml true) = call s .decode_svg := rfl

theorem reaches_resvg_cases (f : Fn) (hf : f.reaches .resvg = true) :
    f = .decode_svg ∨ f = .decode_xml true := by
  cases f with
  | decode_xml t => cases t <;> simp [Fn.reaches, Fn.reachesModule, Fn.kind] at hf ⊢
  | _ => simp [Fn.reaches, Fn.reachesModule, Fn.kind] at hf ⊢

theorem not_reaches_resvg_cases (f : Fn) (hf : f.reaches .resvg = false) :
    f.kind ≠ .resvg ∨ f = .decode_xml false := by
  cases f with
  | decode_xml t => cases t <;> simp [Fn.reaches, Fn.reachesModule, Fn.kind] at hf ⊢
  | _ => simp [Fn.reaches, Fn.reachesModule, Fn.kind] at hf ⊢

theorem call_resvg_kind (s : State) (f : Fn) (hf : f.reaches .resvg = true) (h : s.ResvgInv) :
    (call s f).ResvgInv ∧ ((call s f).instances .resvg).length = 1 := by
  obtain ⟨h1, h2, h3⟩ := h
  have hcall : call s f = call s .decode_svg := by
    rcases reaches_resvg_cases f hf with rfl | rfl <;> rfl
  rw [hcall]
  cases hw : s.resvgWasm with
  | none =>
    have hu := old_uses_empty s hw h3
    rw [hw] at h1 h2
    simp only [Option.isSome_none] at h1
    simp only [Option.toList_none] at h2
    simp only [State.instances] at h2
    simp only [State.uses] at hu
    refine ⟨⟨?_, ?_, ?_⟩, ?_⟩
    · simp [call, invoke, decode_svg, resume, h1]
    · simp [call, invoke, decode_svg, resume, h1, State.instances, List.filter_append, h2]
    · simp [call, invoke, decode_svg, resume, h1, State.uses, List.filter_append, hu]
    · simp [call, invoke, decode_svg, resume, h1, State.instances, List.filter_append, h2]
  | some n =>
    rw [hw] at h1 h2
    simp only [Option.isSome_some] at h1
    simp only [Option.toList_some] at h2
    simp only [State.instances] at h2
    refine ⟨⟨?_, ?_, ?_⟩, ?_⟩
    · simp [call, invoke, decode_svg, h1, hw]
    · simp [call, invoke, decode_svg, h1, State.instances, h2, hw]
    · intro u hu
      simp only [call, invoke, decode_svg, h1, if_true, State.uses, List.filter_append, List.map_append,
        List.mem_append] at hu
      rcases hu with hu | hu
      · have := h3 u hu
        rw [hw] at this
        simpa [call, invoke, decode_svg, h1, hw] using this
      · simp at hu
        simp [call, invoke, decode_svg, h1, hw, hu]
    · simp [call, invoke, decode_svg, h1, State.instances, h2]

theorem invoke_ready_ne (s : State) (f : Fn) (h : f.kind ≠ .resvg) :
    (invoke s f).1.isResvgReady = s.isResvgReady := by
  cases f <;> simp only [Fn.kind, ne_eq, not_true_eq_false] at h <;>
    simp only [invoke, decode_xml, decode_svg] <;> (repeat' split) <;> rfl

theorem invoke_pending_resvg (s : State) (f : Fn) (h : (invoke s f).2 = some .awaitInitResvg) :
    f.kind = .resvg := by
  cases f <;> simp only [invoke, decode_xml, decode_svg] at h <;> (repeat' split at h) <;> simp_all [Fn.kind]

theorem call_resvg_other (s : State) (f : Fn) (hf : f.kind ≠ .resvg) (h : s.ResvgInv) :
    (call s f).ResvgInv ∧ (call s f).instances .resvg = s.instances .resvg := by
  obtain ⟨h1, h2, h3⟩ := h
  have e1 := invoke_instances_ne s f .resvg hf
  have e2 := invoke_uses_ne s f .resvg hf
  have e3 : (invoke s f).1.resvgWasm = s.resvgWasm := invoke_slot_ne s f .resvg hf
  have e4 := invoke_ready_ne s f hf
  have e5 := invoke_pending_resvg s f
  have e6 := invoke_pending_kind s f
  simp only [call]
  rcases hi : invoke s f with ⟨s1, _ | p⟩
  · rw [hi] at e1 e2 e3 e4
    simp only at e1 e2 e3 e4 ⊢
    exact ⟨⟨by rw [e4, e3, h1], by rw [e1, e3, h2], by rw [e2, e3]; exact h3⟩, e1⟩
  · rw [hi] at e1 e2 e3 e4 e5 e6
    simp only at e1 e2 e3 e4 e5 e6 ⊢
    cases p with
    | awaitInitResvg => exact absurd (e5 rfl) hf
    | awaitModule k inst =>
      have hk : k ≠ .resvg := fun e => hf ((e6 k inst rfl).trans e)
      have u1 : (resume s1 (.awaitModule k inst)).uses .resvg = s1.uses .resvg := by
        simp [resume, State.uses, List.filter_append, hk]
      refine ⟨⟨?_, ?_, ?_⟩, ?_⟩
      · show s1.isResvgReady = s1.resvgWasm.isSome
        rw [e4, e3, h1]
      · show s1.instances .resvg = s1.resvgWasm.toList
        rw [e1, e3, h2]
      · rw [u1, e2]
        show ∀ u ∈ s.uses .resvg, u.isSome = true ∧ u = s1.resvgWasm
        rw [e3]
        exact h3
      · show s1.instances .resvg = s.instances .resvg
        exact e1

theorem call_instances (s : State) (f : Fn) (k : Kind) :
    (call s f).instances k = (invoke s f).1.instances k := by
  simp only [call]
  rcases invoke s f with ⟨s1, _ | p⟩
  · rfl
  · exact resume_instances s1 p k

theorem call_heif (s : State) (f : Fn) :
    ((call s f).instances .heif).length =
      (s.instances .heif).length + if f.kind = .heif then 1 else 0 := by
  rw [call_instances]
  by_cases hf : f.kind = .heif
  · have : f = .decode_heif := by
      cases f <;> simp only [Fn.kind] at hf <;> first | rfl | exact absurd hf (by decide)
    subst this
    simp [invoke, State.instances, List.filter_append, Fn.kind]
  · rw [invoke_instances_ne _ _ _ hf]
    simp [hf]

theorem runCalls_resvg (fs : List Fn) : ∀ s : State, s.ResvgInv →
    (runCalls s fs).ResvgInv ∧
    ((runCalls s fs).instances .resvg).length =
      if 1 ≤ (s.instances .resvg).length + fs.countP (fun f => f.reaches .resvg) then 1
      else 0 := by
  induction fs with
  | nil =>
    intro s h
    refine ⟨h, ?_⟩
    have : (s.instances .resvg).length ≤ 1 := by
      rw [h.2.1]
      cases s.resvgWasm <;> simp
    simp only [runCalls, List.foldl_nil, List.countP_nil, Nat.add_zero]
    split_ifs <;> omega
  | cons f fs ih =>
    intro s h
    cases hf : f.reaches .resvg with
    | true =>
      obtain ⟨hinv, hlen⟩ := call_resvg_kind s f hf h
      obtain ⟨h1, h2⟩ := ih (call s f) hinv
      refine ⟨h1, ?_⟩
      simp only [runCalls, List.foldl_cons] at h2 ⊢
      rw [h2, hlen, List.countP_cons_of_pos _ _ (by simp [hf])]
      split_ifs <;> omega
    | false =>
      have hstep : (call s f).ResvgInv ∧ (call s f).instances .resvg = s.instances .resvg := by
        rcases not_reaches_resvg_cases f hf with hk | rfl
        · exact call_resvg_other s f hk h
        · exact ⟨h, rfl⟩
      obtain ⟨hinv, hlen⟩ := hstep
      obtain ⟨h1, h2⟩ := ih (call s f) hinv
      refine ⟨h1, ?_⟩
      simp only [runCalls, List.foldl_cons] at h2 ⊢
      rw [h2, hlen, List.countP_cons_of_neg _ _ (by simp [hf])]

theorem runCalls_heif (fs : List Fn) : ∀ s : State,
    ((runCalls s fs).instances .heif).length =
      (s.instances .heif).length + fs.countP (fun f => f.kind = .heif) := by
  induction fs with
  | nil => intro s; simp [runCalls]
  | cons f fs ih =>
    intro s
    have h := ih (call s f)
    simp only [runCalls, List.foldl_cons] at h ⊢
    rw [h, call_heif]
    by_cases hf : f.kind = .heif
    · rw [List.countP_cons_of_pos _ _ (by simpa using hf)]
      simp [hf]
      omega
    · rw [List.countP_cons_of_neg _ _ (by simpa using hf)]
      simp [hf]

theorem singletonOnFirstUse_resvg (fs : List Fn) :
    SingletonOnFirstUse (runCalls State.initial fs) .resvg
      (fs.countP (fun f => f.reaches .resvg)) := by
  obtain ⟨⟨-, h2, h3⟩, hlen⟩ := runCalls_resvg fs _ resvgInv_initial
  refine ⟨⟨?_, ?_⟩, ?_⟩
  · rw [h2]
    cases (runCalls State.initial fs).resvgWasm <;> simp
  · intro u hu
    obtain ⟨ha, hb⟩ := h3 u hu
    rw [h2, ← hb]
    cases u with
    | none => simp at ha
    | some n => exact ⟨n, rfl, rfl⟩
  · rw [hlen]
    have : State.initial.instances .resvg = [] := rfl
    rw [this]
    simp only [List.length_nil, Nat.zero_add]
    split_ifs <;> omega

/-- The start of a call creates a HEIF/HEIC decoder module exactly when the call is one of
`decode_heif`; the continuation of a suspended call creates none. -/
theorem step_heif (w : World) (e : Event) :
    ((w.step e).state.instances .heif).length =
      (w.state.instances .heif).length + startsOf .heif [e] := by
  cases e with
  | start f =>
    rw [step_start_state]
    by_cases hf : f.kind = .heif
    · have : f = .decode_heif := by
        cases f <;> simp only [Fn.kind] at hf <;> first | rfl | exact absurd hf (by decide)
      subst this
      simp [invoke, State.instances, List.filter_append, startsOf, Fn.reaches, Fn.kind,
        Fn.reachesModule]
    · rw [invoke_instances_ne _ _ _ hf]
      simp [startsOf, reaches_eq f .heif (by decide), hf]
  | proceed i =>
    simp only [World.step]
    cases hget : w.pending.get? i with
    | none => simp [startsOf]
    | some p => simp [resume_instances, startsOf]

/-- Under any interleaving, the HEIF/HEIC decoder modules created are as many as the calls of
`decode_heif` started. -/
theorem run_heif (es : List Event) : ∀ w : World,
    ((w.run es).state.instances .heif).length =
      (w.state.instances .heif).length + startsOf .heif es := by
  induction es with
  | nil => intro w; simp [World.run, startsOf]
  | cons e es ih =>
    intro w
    have h := ih (w.step e)
    simp only [World.run, List.foldl_cons] at h ⊢
    rw [h, step_heif]
    have hs : startsOf .heif (e :: es) = startsOf .heif [e] + startsOf .heif es := by
      simp only [startsOf, List.filter_cons, List.filter_nil]
      split <;> simp [Nat.add_comm]
    rw [hs]
    omega

/-- Calls that do not overlap are one of the interleavings: each call is started and continued
at once. -/
theorem run_sequential (fs : List Fn) : ∀ s : State,
    World.run ⟨s, []⟩ (fs.flatMap fun f => [Event.start f, Event.proceed 0]) =
      ⟨runCalls s fs, []⟩ := by
  induction fs with
  | nil => intro s; rfl
  | cons f fs ih =>
    intro s
    have hstep : (World.step (World.step ⟨s, []⟩ (.start f)) (.proceed 0)) = ⟨call s f, []⟩ := by
      simp only [World.step, call]
      rcases hi : invoke s f with ⟨s1, _ | p⟩ <;> simp
    simp only [List.flatMap_cons, World.run, List.cons_append, List.nil_append, List.foldl_cons,
      runCalls] at ih ⊢
    rw [hstep]
    exact ih (call s f)

/-- Two first calls of `decode_svg` that overlap both call `initResvg`: the flag is set only
after the `await`. -/
theorem overlapping_svg_calls_initialise_twice :
    (World.run World.initial
      [.start .decode_svg, .start .decode_svg, .proceed 0, .proceed 0]).state.instances .resvg =
      [0, 1] := by
  decide

/-- A call of `decode_xml` whose `transform` throws creates no renderer; the call of
`decode_svg` after it creates the renderer, and the call of `decode_xml` after that works with
the same one. -/
theorem decode_xml_throw_creates_no_renderer :
    (runCalls State.initial [.decode_xml false]).instances .resvg = [] ∧
    (runCalls State.initial [.decode_xml false, .decode_svg, .decode_xml true]).instances
      .resvg = [0] ∧
    (runCalls State.initial [.decode_xml false, .decode_svg, .decode_xml true]).uses
      .resvg = [some 0, some 0] := by
  decide

/-! ## The claim about the modules -/

/-- C9, as stated, fails for the HEIF/HEIC decoder: two calls of `decode_heif`, one after the
other, create two module instances, and the second call works with the second instance. -/
theorem C9_heif_counterexample :
    (runCalls State.initial [.decode_heif, .decode_heif]).instances .heif = [0, 1] ∧
    (runCalls State.initial [.decode_heif, .decode_heif]).uses .heif = [some 0, some 1] ∧
    ¬ Singleton (runCalls State.initial [.decode_heif, .decode_heif]) .heif :=
  ⟨by decide, by decide, fun h => absurd h.1 (by decide)⟩

/-- C9 (amended): across every sequence of decode and encode calls, overlapping or not, the
AVIF decoder module, the AVIF encoder module, the WEBP encoder module and the PDF worker port
are each created at most once, on the first call for the format, and every later call for that
format works with that same instance; the HEIF/HEIC decoder module is created once by every
call of decode_heif, overlapping or not; across calls that do not overlap the SVG renderer is
created at most once, on the first call that gets as far as the renderer (a call of decode_svg,
or a call of decode_xml whose transform step returns; a call of decode_xml whose transform step
throws creates nothing), and every later such call works with that same instance. -/
theorem C9_module_singletons (es : List Event) (fs : List Fn) :
    SingletonOnFirstUse (World.run World.initial es).state .avifDec (startsOf .avifDec es) ∧
    SingletonOnFirstUse (World.run World.initial es).state .avifEnc (startsOf .avifEnc es) ∧
    SingletonOnFirstUse (World.run World.initial es).state .webpEnc (startsOf .webpEnc es) ∧
    SingletonOnFirstUse (World.run World.initial es).state .pdfWorker
      (startsOf .pdfWorker es) ∧
    ((World.run World.initial es).state.instances .heif).length = startsOf .heif es ∧
    SingletonOnFirstUse (runCalls State.initial fs) .resvg
      (fs.countP fun f => f.reaches .resvg) :=
  ⟨singletonOnFirstUse_run es .avifDec rfl, singletonOnFirstUse_run es .avifEnc rfl,
   singletonOnFirstUse_run es .webpEnc rfl, singletonOnFirstUse_run es .pdfWorker rfl,
   by
     rw [run_heif]
     have : World.initial.state.instances .heif = [] := rfl
     rw [this]
     simp,
   singletonOnFirstUse_resvg fs⟩

end Modules

namespace Drag

open Worker

/-! ## The filter -/

theorem heifPattern_iff (name : Str) :
    heifPattern name = true ↔
      ".heif".toList <:+ toLowerCase name ∨ ".heic".toList <:+ toLowerCase name := by
  unfold heifPattern
  rw [List.any_eq_true]
  constructor
  · rintro ⟨s, hs, hm⟩
    rw [List.mem_tails] at hs
    obtain ⟨t, ht⟩ := hs
    have hsuf : toLowerCase s <:+ toLowerCase name :=
      ⟨toLowerCase t, by rw [← ht, toLowerCase_append]⟩
    simp at hm
    rcases hm with hm | hm
    · rw [hm] at hsuf
      exact Or.inl hsuf
    · rw [hm] at hsuf
      exact Or.inr hsuf
  · intro h
    have key : ∀ a : Str, a <:+ toLowerCase name →
        ∃ s, s <:+ name ∧ toLowerCase s = a := by
      intro a ha
      refine ⟨name.drop (name.length - a.length), List.drop_suffix _ _, ?_⟩
      rw [toLowerCase_drop]
      have := List.suffix_iff_eq_drop.1 ha
      rw [toLowerCase_length] at this
      exact this.symm
    rcases h with h | h
    · obtain ⟨s, hs, he⟩ := key _ h
      exact ⟨s, (List.mem_tails _ _).2 hs, by simp [he]⟩
    · obtain ⟨s, hs, he⟩ := key _ h
      exact ⟨s, (List.mem_tails _ _).2 hs, by simp [he]⟩

/-- The test of the handler is the filter of the specification. -/
theorem passesFilter_eq_specFilter (file : File) : passesFilter file = specFilter file := by
  unfold passesFilter specFilter
  congr 1
  · simp
  · rw [Bool.eq_iff_iff, heifPattern_iff]
    simp [List.isSuffixOf_iff_suffix]

theorem filter_passesFilter (files : List File) :
    files.filter passesFilter = files.filter specFilter := by
  congr 1
  funext f
  exact passesFilter_eq_specFilter f

theorem clipboardFiles_eq_spec (p : Platform) (dt : DataTransfer) :
    clipboardFiles p dt = specClipboardFiles p dt := by
  unfold clipboardFiles specClipboardFiles createSvgFile
  rw [List.filter_map, List.filter_filter, List.map_map]
  have hfilter : dt.types.filter (fun type =>
        decide (type = "text/plain".toList) && p.isSvg (dt.getData type)) =
      dt.types.filter (fun a =>
        (p.isSvg ∘ dt.getData) a && decide (a = "text/plain".toList)) :=
    List.filter_congr (fun x _ => by simp [Bool.and_comm])
  rw [hfilter]
  rfl

/-! ## The traversal -/

mutual
theorem traverse_eq : ∀ handle : Handle, noDirectoryEntry handle = true →
    traverse handle = some ((handleFiles handle).filter passesFilter)
  | .absent, _ => rfl
  | .directoryHandle entries, h => by
    simp only [traverse, handleFiles]
    exact traverseAll_eq entries (by simpa [noDirectoryEntry] using h)
  | .directoryEntry _, h => by simp [noDirectoryEntry] at h
  | .fileHandle file, _ => by
    cases hf : passesFilter file <;> simp [traverse, handleFiles, hf]
  | .fileEntry _, _ => rfl
  | .bareFile _, _ => rfl
theorem traverseAll_eq : ∀ handles : List Handle, noDirectoryEntryAll handles = true →
    traverseAll handles = some ((handleFilesAll handles).filter passesFilter)
  | [], _ => rfl
  | handle :: rest, h => by
    simp only [noDirectoryEntryAll, Bool.and_eq_true] at h
    simp only [traverseAll, handleFilesAll, traverse_eq handle h.1, traverseAll_eq rest h.2,
      List.filter_append]
end

/-- A legacy directory entry among the item handles ends the handler before `onDrop`. -/
theorem traverse_directoryEntry (entries : List Handle) :
    traverse (.directoryEntry entries) = none := rfl

/-- On a browser with `webkitGetAsEntry` only, the drop of a directory ends the handler with an
exception: `onDrop` is not called. -/
theorem entryDirectoryDrop_throws :
    handleDataTransfer legacyPlatform entryDirectoryDrop = ⟨[], true⟩ := by
  decide

/-! ## The drag-over flag -/

/-- After an event whose handler the element has (`dragover`, `dragenter`, `drop`, `dragend`),
the flag is as the specification says. -/
theorem dragOver_after_handled (p : Platform) (dt : DataTransfer) (page : Page) :
    (dispatch (createFileDropHandler p []) ⟨"dragover".toList, dt⟩ page).dragOver = true ∧
    (dispatch (createFileDropHandler p []) ⟨"dragenter".toList, dt⟩ page).dragOver = true ∧
    (dispatch (createFileDropHandler p []) ⟨"drop".toList, dt⟩ page).dragOver = false ∧
    (dispatch (createFileDropHandler p []) ⟨"dragend".toList, dt⟩ page).dragOver = false :=
  ⟨rfl, rfl, rfl, rfl⟩

/-- A `dragleave` event finds no handler: the page is unchanged. -/
theorem dispatch_dragleave (p : Platform) (dt : DataTransfer) (page : Page) :
    dispatch (createFileDropHandler p []) ⟨"dragleave".toList, dt⟩ page = page := rfl

/-! ## Admitted files and the decoders -/

/-- Every supported MIME type other than the two sequence types resolves to a key with a
decoder, whatever the name of the file. -/
theorem supported_type_has_decoder (name : Str) (content : Bytes) (type : Str)
    (h : type ∈ SUPPORTED_MIME_TYPES) (h1 : type ≠ "image/heif-sequence".toList)
    (h2 : type ≠ "image/heic-sequence".toList) :
    (decoders (resolveSrc ⟨name, type, content⟩)).isSome = true := by
  simp only [SUPPORTED_MIME_TYPES, List.mem_cons, List.mem_singleton, List.not_mem_nil,
    or_false] at h
  rcases h with rfl | rfl | rfl | rfl | rfl | rfl | rfl | rfl | rfl | rfl | rfl | rfl
  all_goals first | rfl | exact absurd rfl h1 | exact absurd rfl h2

/-! ## The claims about the drop handler -/

/-- C7, as stated, fails: on a browser with `webkitGetAsEntry` only, the drop of the one file
`a.png` hands out a file entry, which the traversal skips (it has no `getFile`); `onDrop`
receives the file once, from the flat list, where the specification lists it twice. -/
theorem C7_entry_counterexample :
    handleDataTransfer legacyPlatform entryDrop = ⟨[[rootPng]], false⟩ ∧
    specDropList legacyPlatform entryDrop = [rootPng, rootPng] ∧
    handleDataTransfer legacyPlatform entryDrop ≠
      ⟨[specDropList legacyPlatform entryDrop], false⟩ := by
  decide

/-- C7 (amended): for every drop or paste data transfer in which no item handle is or holds a
legacy directory entry (a directory without values()), handleDataTransfer invokes onDrop exactly
once, with the list equal to:
one "image.svg" file of type image/svg+xml per text/plain payload that passes the SVG sniff,
followed by the files behind the file-system file handles (the leaves that have getFile)
reached from the file-kind item handles depth-first in enumeration order (a directory's
contents before its next sibling, absent handles skipped) that pass the filter, followed by the
flat files that pass the filter, where a file passes iff its MIME type is in the supported set
or its name ends in .heif or .heic without regard to case. -/
theorem C7_drop_list (p : Platform) (dt : DataTransfer)
    (h : noDirectoryEntryAll (itemHandles p (dt.items.getD [])) = true) :
    handleDataTransfer p dt = ⟨[amendedDropList p dt], false⟩ := by
  unfold handleDataTransfer amendedDropList
  rw [clipboardFiles_eq_spec, filter_passesFilter]
  cases hi : dt.items with
  | none => simp [handleFilesAll, itemHandles]
  | some items =>
    rw [hi] at h
    simp only [Option.getD_some] at h ⊢
    rw [traverseAll_eq _ h, filter_passesFilter]

/-- C7 (amended), at the example of the specification: a directory holding one supported
file, one unsupported file and one subdirectory with one supported file yields exactly two
files, the root's file before the nested one. -/
theorem C7_directory_witness :
    noDirectoryEntryAll (itemHandles modernPlatform (directoryDrop.items.getD [])) = true ∧
    handleDataTransfer modernPlatform directoryDrop = ⟨[[rootPng, nestedJpg]], false⟩ :=
  ⟨by decide, (C7_drop_list modernPlatform directoryDrop (by decide)).trans (by decide)⟩

/-- C8 fails on the code for dragleave: the handler that clears the flag is assigned to the
property `dragleave`, not `ondragleave`, so a `dragleave` event runs no handler and the flag
set by the preceding `dragenter` stays set. -/
theorem C8_dragleave_flag_stays :
    (dispatchAll (createFileDropHandler modernPlatform [])
      [dragEvent "dragenter", dragEvent "dragleave"] Page.initial).dragOver = true ∧
    ¬ DragOverContract (dragEvent "dragleave")
      (dispatchAll (createFileDropHandler modernPlatform [])
        [dragEvent "dragenter", dragEvent "dragleave"] Page.initial) := by
  refine ⟨rfl, ?_⟩
  intro h
  have := h.2 (by decide)
  exact absurd this (by decide)

/-- C10 fails on the code: a file of type `image/heic-sequence` passes the filter of the drop
handler, but its resolved source format `heic-sequence` has no decoder, so the worker drops
every job for it without a message; the same holds for a `.HEIC` file whose MIME type is
misreported. -/
theorem C10_admitted_file_dropped :
    (passesFilter sequenceFile = true ∧ decoders (resolveSrc sequenceFile) = none ∧
      ∀ (env : Env) (minted : Nat) (id : Str),
        (handleJob env minted ⟨id, sequenceFile, "png".toList⟩).posted = []) ∧
    (passesFilter misreportedHeic = true ∧ decoders (resolveSrc misreportedHeic) = none ∧
      ∀ (env : Env) (minted : Nat) (id : Str),
        (handleJob env minted ⟨id, misreportedHeic, "png".toList⟩).posted = []) :=
  have h1 : decoders (resolveSrc sequenceFile) = none := by decide
  have h2 : decoders (resolveSrc misreportedHeic) = none := by decide
  ⟨⟨by decide, h1, fun env minted id => by
      rw [handleJob_unsupported env minted _ (Or.inr h1)]⟩,
   ⟨by decide, h2, fun env minted id => by
      rw [handleJob_unsupported env minted _ (Or.inr h2)]⟩⟩

end Drag
